import Mathlib

/-!
# CryptographyTools: `SplitDataXOR.c` and `splinch.c`

A shallow embedding of the two C programs of the repository and the proofs of
their specified properties.

Conventions of the embedding:

* a `char` object is the natural number of its 8-bit pattern (`0 ≤ c < 256`);
  a `char` buffer is a `List Nat`;
* every array access is checked: reading or writing outside a buffer is the
  fault `Fault.outOfBounds`, so a run that is not a fault never left its buffers;
* the loop counter `int i` is a 32-bit signed integer: incrementing it past
  `INT_MAX` is the fault `Fault.intOverflow`;
* loops are run with a fuel argument; the programs pass enough fuel and the
  theorems show `Fault.outOfFuel` never happens;
* the C library (`calloc`, `getrandom`, `getopt`, `strlcpy`) is not part of the
  repository: its answers that the program cannot control (allocation success,
  random bytes) are inputs of the embedding, and its deterministic functions are
  written after their manual pages.
-/

namespace CLib

/-- Undefined behaviour the embedding makes explicit. -/
inductive Fault where
  | outOfBounds
  | intOverflow
  | nullPointer
  | outOfFuel
  deriving DecidableEq, Repr

/-- Bytes of a string literal (ASCII). -/
def lit (s : String) : List Nat := s.toList.map Char.toNat

/-- The C library's `strlen` on the memory `s`: the number of bytes before the
first NUL. -/
def strlen (s : List Nat) : Nat := (s.takeWhile (fun b => b ≠ 0)).length

/-- What `%s` prints for the buffer `buf`: the bytes before its first NUL; a
buffer without a NUL is read past its end. -/
def printS (buf : List Nat) : Except Fault (List Nat) :=
  if 0 ∈ buf then .ok (buf.takeWhile (fun b => b ≠ 0)) else .error .outOfBounds

end CLib

namespace SplitDataXOR

open CLib

/-- Largest value of the C type `int` (32 bits, two's complement). -/
def INT_MAX : Nat := 2147483647

/-- Byte sequences: every element is an 8-bit pattern. -/
def IsBytes (l : List Nat) : Prop := ∀ b ∈ l, b < 256

instance (l : List Nat) : Decidable (IsBytes l) := by
  unfold IsBytes; infer_instance

/-- Integer promotion of a (signed) `char` to `int`: the 32-bit two's
complement pattern of the sign-extended value. -/
def promote (c : Nat) : Nat := if c < 128 then c else c + (4294967296 - 256)

/-- The C expression `a ^ b` on two `char` operands, converted back to `char`
by the assignment that stores it. -/
def xorChar (a b : Nat) : Nat := (promote a ^^^ promote b) % 256

/-- The C expression `(char)c & 0xFF`, an `int` in `0..255`. -/
def lowByte (c : Nat) : Nat := promote c &&& 255

/-- One lower-case hexadecimal digit. -/
def hexDigit (d : Nat) : Nat := if d < 10 then 48 + d else 87 + d

/-- Hexadecimal digits of `v`, most significant first; `fuel` bounds the
number of digits. -/
def hexDigits : Nat → Nat → List Nat
  | 0, _ => []
  | fuel + 1, v => if v < 16 then [hexDigit v] else hexDigits fuel (v / 16) ++ [hexDigit (v % 16)]

/-- The bytes `fprintf(stdout, "%02x ", v)` writes for an `int` `v ≥ 0`: at
least two hexadecimal digits, zero padded, and a blank. -/
def fmt02x (v : Nat) : List Nat :=
  let ds := hexDigits 8 v
  List.replicate (2 - ds.length) 48 ++ ds ++ [32]

/-- Checked read `buf[i]`. -/
def load (buf : List Nat) (i : Nat) : Except Fault Nat :=
  match buf[i]? with
  | some v => .ok v
  | none => .error .outOfBounds

/-- Checked write `buf[i] = v`. -/
def store (buf : List Nat) (i : Nat) (v : Nat) : Except Fault (List Nat) :=
  if i < buf.length then .ok (buf.set i v) else .error .outOfBounds

/-- The answers of the C library that `main` does not control. -/
structure Env where
  /-- whether `calloc` for `xorKey` returns a block -/
  xorKeyAlloc : Bool
  /-- whether `calloc` for `cypherText` returns a block -/
  cypherTextAlloc : Bool
  /-- whether `calloc` for `extractedPlainText` returns a block -/
  extractedAlloc : Bool
  /-- what the kernel's random source delivers to `getrandom`: `none` is the
  error return, `some bs` the bytes it can supply -/
  random : Option (List Nat)

/-- The C library's `calloc(nmemb, size)`: a zeroed block, or `NULL`. -/
def calloc (ok : Bool) (nmemb size : Nat) : Option (List Nat) :=
  if ok then some (List.replicate (nmemb * size) 0) else none

/-- The system call `getrandom(buf, buflen, 0)`: writes at most `buflen` of the
delivered bytes at the start of `buf` and returns how many it wrote, or `-1`. -/
def getrandom (random : Option (List Nat)) (buf : List Nat) (buflen : Nat) : Int × List Nat :=
  match random with
  | none => (-1, buf)
  | some bs =>
    let w := (bs.take buflen).take buf.length
    (w.length, w ++ buf.drop w.length)

/-- The buffers of `main` and what it has written to `stdout`. -/
structure State where
  xorKey : List Nat
  cypherText : List Nat
  extractedPlainText : List Nat
  stdout : List Nat
  deriving DecidableEq, Repr

/-- The statement `for (int i = 0; i < buflen; i++) body`, entered with the
counter at `i`. -/
def forLoop (buflen : Nat) (body : Nat → State → Except Fault State) :
    Nat → Nat → State → Except Fault State
  | 0, i, s => if i < buflen then .error .outOfFuel else .ok s
  | fuel + 1, i, s =>
    if i < buflen then
      match body i s with
      | .error e => .error e
      | .ok s' =>
        if i + 1 ≤ INT_MAX then forLoop buflen body fuel (i + 1) s'
        else .error .intOverflow
    else .ok s

/-- Body of the first loop (lines 27-28): compute and print one cipher byte. -/
def splitBody (plainText : List Nat) (i : Nat) (s : State) : Except Fault State :=
  match load plainText i, load s.xorKey i with
  | .ok p, .ok k =>
    match store s.cypherText i (xorChar p k) with
    | .ok cypherText =>
      match load cypherText i with
      | .ok c => .ok { s with cypherText := cypherText, stdout := s.stdout ++ fmt02x (lowByte c) }
      | .error e => .error e
    | .error e => .error e
  | .error e, _ => .error e
  | _, .error e => .error e

/-- Body of the second loop (lines 35-36): recover one plain byte and print
one key byte. -/
def recombineBody (i : Nat) (s : State) : Except Fault State :=
  match load s.cypherText i, load s.xorKey i with
  | .ok c, .ok k =>
    match store s.extractedPlainText i (xorChar c k) with
    | .ok extracted =>
      .ok { s with extractedPlainText := extracted, stdout := s.stdout ++ fmt02x (lowByte k) }
    | .error e => .error e
  | .error e, _ => .error e
  | _, .error e => .error e

/-- Body of the third loop (line 43): print one plain byte. -/
def dumpBody (plainText : List Nat) (i : Nat) (s : State) : Except Fault State :=
  match load plainText i with
  | .ok p => .ok { s with stdout := s.stdout ++ fmt02x (lowByte p) }
  | .error e => .error e

/-- `fprintf(stdout, ...)` of fixed bytes. -/
def emit (bs : List Nat) (s : State) : State := { s with stdout := s.stdout ++ bs }

/-- What a run of `main` leaves behind. -/
structure Outcome where
  /-- value returned by `main` -/
  status : Int
  /-- number of bytes asked of `getrandom` (`0` when it was not called) -/
  requested : Nat
  /-- value `getrandom` returned (`0` when it was not called) -/
  xorKeyValLen : Int
  /-- buffers and standard output -/
  state : State
  /-- standard error -/
  stderr : List Nat
  deriving DecidableEq, Repr

/-- State of `main` once the three buffers are allocated and `getrandom` has
filled `xorKey`. -/
def initState (xorKey cypherText extractedPlainText : List Nat) : State :=
  { xorKey := xorKey, cypherText := cypherText,
    extractedPlainText := extractedPlainText, stdout := [] }

/-- The part of `main` after the entropy check (lines 25-49). -/
def demo (plainText : List Nat) (buflen : Nat) (s0 : State) : Except Fault State :=
  match forLoop buflen (splitBody plainText) buflen 0 s0 with
  | .error e => .error e
  | .ok s1 =>
    match forLoop buflen recombineBody buflen 0 (emit (lit "\n") s1) with
    | .error e => .error e
    | .ok s2 =>
      match forLoop buflen (dumpBody plainText) buflen 0 (emit (lit "\n") s2) with
      | .error e => .error e
      | .ok s3 =>
        match printS plainText, printS s3.extractedPlainText with
        | .ok original, .ok extracted =>
          .ok (emit (lit "Original " ++ original ++ lit "\nExtracted " ++ extracted ++ lit "\n")
            (emit (lit "\n\n") s3))
        | .error e, _ => .error e
        | _, .error e => .error e

/-- The program `SplitDataXOR.c`, for the string literal `literal` in place of
`"Hello World!"`; `plainText` points to the literal's bytes followed by the
terminating NUL. -/
def main (literal : List Nat) (env : Env) : Except Fault Outcome :=
  let plainText := literal ++ [0]
  let buflen := strlen plainText + 1
  match calloc env.xorKeyAlloc 1 buflen, calloc env.cypherTextAlloc 1 buflen,
      calloc env.extractedAlloc 1 buflen with
  | some xorKey, some cypherText, some extractedPlainText =>
    let r := getrandom env.random xorKey buflen
    let s0 := initState r.2 cypherText extractedPlainText
    if r.1 < (buflen : Int) then
      .ok { status := -2, requested := buflen, xorKeyValLen := r.1, state := s0,
            stderr := lit "Error in generating xor key\n" }
    else
      match demo plainText buflen s0 with
      | .error e => .error e
      | .ok s =>
        .ok { status := 0, requested := buflen, xorKeyValLen := r.1, state := s, stderr := [] }
  | _, _, _ =>
    .ok { status := -1, requested := 0, xorKeyValLen := 0, state := initState [] [] [], stderr := [] }

/-- The first loop of `main` (lines 25-29) alone, on the text `plainText` and
the key `xorKey`, started as `main` starts it: on zeroed `buflen`-byte output
buffers. -/
def splitLoop (plainText xorKey : List Nat) (buflen : Nat) : Except Fault State :=
  forLoop buflen (splitBody plainText) buflen 0
    (initState xorKey (List.replicate buflen 0) (List.replicate buflen 0))

/-- The second loop of `main` (lines 33-37) alone, on the cipher `cypherText`
and the key `xorKey`, with a zeroed `buflen`-byte output buffer. -/
def recombineLoop (cypherText xorKey : List Nat) (buflen : Nat) : Except Fault State :=
  forLoop buflen recombineBody buflen 0
    (initState xorKey cypherText (List.replicate buflen 0))

/-- The print of one byte list in the `%02x ` format. -/
def hexDump (l : List Nat) : List Nat := (l.map (fun c => fmt02x (lowByte c))).flatten

/-- Bytewise exclusive-OR of two byte sequences, the `combine` of the
specification. -/
def xorBytes (a b : List Nat) : List Nat := List.zipWith (fun x y => x ^^^ y) a b

/-- The value of `buflen` in `main`: the literal's `strlen` and the terminator. -/
def buflenOf (literal : List Nat) : Nat := strlen (literal ++ [0]) + 1

/-- Standard output of a successful run on the memory `P`, the key `K` and the
length `n`. -/
def expectedStdout (P K : List Nat) (n : Nat) : List Nat :=
  hexDump (xorBytes (P.take n) K) ++ lit "\n" ++ hexDump K ++ lit "\n" ++ hexDump (P.take n)
    ++ lit "\n\n"
    ++ (lit "Original " ++ P.takeWhile (fun b => b ≠ 0) ++ lit "\nExtracted "
        ++ (P.take n).takeWhile (fun b => b ≠ 0) ++ lit "\n")

/-- The first loop run chunk by chunk: on each pair of a text chunk and a key
chunk in turn, the ciphers put one after the other. -/
def splitChunks : List (List Nat × List Nat) → Except Fault (List Nat)
  | [] => .ok []
  | c :: cs =>
    match splitLoop c.1 c.2 c.1.length, splitChunks cs with
    | .ok s, .ok r => .ok (s.cypherText ++ r)
    | .error e, _ => .error e
    | _, .error e => .error e

/-- A key of thirteen bytes, for running the program as written. -/
def sampleKey : List Nat := [17, 200, 3, 255, 90, 0, 128, 64, 33, 7, 250, 1, 99]

/-- The literal of the program as written. -/
def helloWorld : List Nat := lit "Hello World!"

/-- An environment in which every allocation succeeds and the random source
delivers `key`. -/
def envWith (key : List Nat) : Env :=
  { xorKeyAlloc := true, cypherTextAlloc := true, extractedAlloc := true, random := some key }

end SplitDataXOR

namespace Splinch

open CLib

/-- `EXIT_SUCCESS` of `<stdlib.h>`. -/
def EXIT_SUCCESS : Int := 0

/-- `EXIT_FAILURE` of `<stdlib.h>`. -/
def EXIT_FAILURE : Int := 1

/-- The option string `"i:o:p:"` that `main` passes to `getopt`. -/
def optstring : List Nat := lit "i:o:p:"

/-- What the option string says about an option character. -/
inductive ArgKind where
  | noArgument
  | required
  | optional
  deriving DecidableEq, Repr

/-- Search of the option string for the character `c` (`strchr`) and the
colons that follow it. -/
def lookup (opts : List Nat) (c : Nat) : Option ArgKind :=
  match opts.dropWhile (fun x => x ≠ c) with
  | [] => none
  | _ :: 58 :: 58 :: _ => some .optional
  | _ :: 58 :: _ => some .required
  | _ => some .noArgument

/-- The test `NONOPTION_P` of `getopt`: an argument that does not start with
`-`, or is `-` alone. -/
def isNonOption (a : List Nat) : Bool :=
  match a with
  | 45 :: _ :: _ => false
  | _ => true

/-- The position of `getopt` in the argument vector. The pointers `optind` and
`nextchar` are represented by what they point to: `nextchar` holds the option
characters of the current argument that are still unread (empty when the next
call starts a new argument) and `rest` the arguments after it. -/
structure Getopt where
  rest : List (List Nat)
  nextchar : List Nat
  deriving DecidableEq, Repr

/-- The diagnostic `getopt` writes when it returns `?`. -/
inductive Diag where
  | invalidOption (c : Nat)
  | requiresArgument (c : Nat)
  deriving DecidableEq, Repr

/-- What one call of `getopt` leaves: its return value, `optarg`, the
diagnostic it printed and its new position. -/
structure Reply where
  opt : Int
  optarg : Option (List Nat)
  diag : Option Diag
  next : Getopt
  deriving DecidableEq, Repr

/-- The handling of the short option character `c` by `getopt`; `cs` are the
characters after it in the same argument and `rest` the following arguments. -/
def shortOption (opts : List Nat) (c : Nat) (cs : List Nat) (rest : List (List Nat)) : Reply :=
  match lookup opts c with
  | none => { opt := 63, optarg := none, diag := some (.invalidOption c), next := ⟨rest, cs⟩ }
  | some kind =>
    if c = 58 ∨ c = 59 then
      { opt := 63, optarg := none, diag := some (.invalidOption c), next := ⟨rest, cs⟩ }
    else
      match kind with
      | .noArgument => { opt := c, optarg := none, diag := none, next := ⟨rest, cs⟩ }
      | .optional =>
        if cs ≠ [] then { opt := c, optarg := some cs, diag := none, next := ⟨rest, []⟩ }
        else { opt := c, optarg := none, diag := none, next := ⟨rest, []⟩ }
      | .required =>
        if cs ≠ [] then { opt := c, optarg := some cs, diag := none, next := ⟨rest, []⟩ }
        else
          match rest with
          | [] =>
            { opt := if opts.head? = some 58 then 58 else 63, optarg := none,
              diag := some (.requiresArgument c), next := ⟨[], []⟩ }
          | a :: rest' => { opt := c, optarg := some a, diag := none, next := ⟨rest', []⟩ }

/-- One call `getopt(argc, argv, opts)` at the position `g`. With `permute`
(the GNU default) arguments that are not options are skipped, without it (POSIX)
the first of them ends the options. The option string is taken without the
GNU prefixes `+` and `-`. -/
def getopt (permute : Bool) (opts : List Nat) (g : Getopt) : Reply :=
  match g.nextchar with
  | c :: cs => shortOption opts c cs g.rest
  | [] =>
    match (if permute then g.rest.dropWhile isNonOption else g.rest) with
    | [] => { opt := -1, optarg := none, diag := none, next := ⟨[], []⟩ }
    | a :: rest =>
      if a = [45, 45] then { opt := -1, optarg := none, diag := none, next := ⟨rest, []⟩ }
      else
        match a with
        | 45 :: c :: cs => shortOption opts c cs rest
        | _ => { opt := -1, optarg := none, diag := none, next := ⟨a :: rest, []⟩ }

/-- The C library's `strlcpy(dst, src, size)` for the string `src` (its bytes,
the terminator left out): the buffer `dst` after the call. At most `size - 1`
bytes are copied and a NUL is put after them. -/
def strlcpy (dst src : List Nat) (size : Nat) : List Nat :=
  if size = 0 then dst
  else
    let n := min (strlen (src ++ [0])) (size - 1)
    src.take n ++ [0] ++ dst.drop (n + 1)

/-- The three path buffers of `main`. -/
structure Locals where
  inputPath : List Nat
  outputPath : List Nat
  padPath : List Nat
  deriving DecidableEq, Repr

/-- How the `while` loop of `main` is left. -/
inductive LoopEnd where
  /-- `getopt` returned `-1` -/
  | done (l : Locals)
  /-- the `default` branch: `exit(EXIT_FAILURE)` -/
  | usage (l : Locals)
  deriving DecidableEq, Repr

/-- The `while ((opt = getopt(argc, argv, "i:o:p:")) != -1)` loop (lines
30-46); `PATH_MAX` is the constant of `<linux/limits.h>`. -/
def optionLoop (PATH_MAX : Nat) (permute : Bool) : Nat → Getopt → Locals → Except Fault LoopEnd
  | 0, _, _ => .error .outOfFuel
  | fuel + 1, g, l =>
    let r := getopt permute optstring g
    if r.opt = -1 then .ok (.done l)
    else if r.opt = 105 then
      match r.optarg with
      | some optarg =>
        optionLoop PATH_MAX permute fuel r.next
          { l with inputPath := strlcpy l.inputPath optarg PATH_MAX }
      | none => .error .nullPointer
    else if r.opt = 111 then
      match r.optarg with
      | some optarg =>
        optionLoop PATH_MAX permute fuel r.next
          { l with outputPath := strlcpy l.outputPath optarg PATH_MAX }
      | none => .error .nullPointer
    else if r.opt = 112 then
      match r.optarg with
      | some optarg =>
        optionLoop PATH_MAX permute fuel r.next
          { l with padPath := strlcpy l.padPath optarg PATH_MAX }
      | none => .error .nullPointer
    else .ok (.usage l)

/-- What a run of `main` leaves behind. -/
structure Outcome where
  /-- exit status -/
  status : Int
  /-- the path buffers at the exit -/
  locals : Locals
  /-- standard output -/
  stdout : List Nat
  /-- standard error, the diagnostics of `getopt` left out -/
  stderr : List Nat
  deriving DecidableEq, Repr

/-- Number of `getopt` calls that `argv` can need at most, plus one. -/
def fuelFor (argv : List (List Nat)) : Nat := (argv.map (fun a => a.length + 1)).sum + 1

/-- The program `splinch.c`; `argv` holds the bytes of the arguments, the
program name first. -/
def main (PATH_MAX : Nat) (permute : Bool) (argv : List (List Nat)) : Except Fault Outcome :=
  let l0 : Locals :=
    { inputPath := List.replicate PATH_MAX 0, outputPath := List.replicate PATH_MAX 0,
      padPath := List.replicate PATH_MAX 0 }
  match optionLoop PATH_MAX permute (fuelFor argv) ⟨argv.drop 1, []⟩ l0 with
  | .error e => .error e
  | .ok (.usage l) =>
    .ok { status := EXIT_FAILURE, locals := l, stdout := [],
          stderr := lit "Usage: " ++ argv.headD [] ++
            lit " -i <input path> -o <output path> -p <pad output path>\n" }
  | .ok (.done l) =>
    match printS l.inputPath, printS l.outputPath, printS l.padPath with
    | .ok i, .ok o, .ok p =>
      .ok { status := EXIT_SUCCESS, locals := l,
            stdout := lit "inputPath " ++ i ++ lit "\noutputPath " ++ o ++ lit "\npadPath " ++ p
              ++ lit "\n",
            stderr := [] }
    | .error e, _, _ => .error e
    | _, .error e, _ => .error e
    | _, _, .error e => .error e

/-- The replies of the successive `getopt` calls on an argument vector, up to
the call that returns `-1`. -/
def reports (permute : Bool) : Nat → Getopt → List Reply
  | 0, _ => []
  | fuel + 1, g =>
    let r := getopt permute optstring g
    if r.opt = -1 then [] else r :: reports permute fuel r.next

/-- One of the options `-i`, `-o`, `-p` with its argument, written either as
two arguments (`-i path`) or as one (`-ipath`). -/
structure Opt where
  flag : Nat
  arg : List Nat
  attached : Bool
  deriving DecidableEq, Repr

/-- The arguments an option is written as. -/
def Opt.render (o : Opt) : List (List Nat) :=
  if o.attached then [45 :: o.flag :: o.arg] else [[45, o.flag], o.arg]

/-- An option of `splinch` given with an argument: the flag is `i`, `o` or `p`,
the argument is a C string, and an attached argument is not empty. -/
def Opt.WellFormed (o : Opt) : Prop :=
  (o.flag = 105 ∨ o.flag = 111 ∨ o.flag = 112) ∧ 0 ∉ o.arg ∧ (o.attached = true → o.arg ≠ [])

instance (o : Opt) : Decidable o.WellFormed := by
  unfold Opt.WellFormed; infer_instance

/-- The argument vector made of the program name and the options `os`. -/
def commandLine (prog : List Nat) (os : List Opt) : List (List Nat) :=
  prog :: (os.map Opt.render).flatten

/-- The argument of the last occurrence of `flag` among `os`, empty when it
does not occur. -/
def lastArg (flag : Nat) (os : List Opt) : List Nat :=
  match (os.filter (fun o => o.flag = flag)).getLast? with
  | some o => o.arg
  | none => []

/-- Number of bytes of the argument vector that `getopt` has not passed yet;
it bounds the number of calls left. -/
def Getopt.size (g : Getopt) : Nat :=
  g.nextchar.length + (g.rest.map (fun a => a.length + 1)).sum

/-- The reply of `getopt` reports an option other than `-i`, `-o`, `-p`, or one
of these three with its argument missing. -/
def Reply.Rejected (r : Reply) : Prop :=
  (∃ c, r.diag = some (.invalidOption c) ∧ c ≠ 105 ∧ c ≠ 111 ∧ c ≠ 112) ∨
  (∃ c, r.diag = some (.requiresArgument c) ∧ (c = 105 ∨ c = 111 ∨ c = 112))

/-- A reply of `getopt` under `"i:o:p:"` that is not the end of the options:
either `?` with a rejection, or one of `i`, `o`, `p` with its argument. -/
def Reply.Good (r : Reply) : Prop :=
  (r.opt = 63 ∧ r.Rejected) ∨
  ((r.opt = 105 ∨ r.opt = 111 ∨ r.opt = 112) ∧ ¬ r.Rejected ∧ ∃ a, r.optarg = some a)

/-- The three path buffers hold a NUL. -/
def Locals.Terminated (l : Locals) : Prop :=
  0 ∈ l.inputPath ∧ 0 ∈ l.outputPath ∧ 0 ∈ l.padPath

/-- The effect of one option of `splinch` on the path buffers: the `case` of
the `switch` that its flag selects. -/
def applyOpt (PATH_MAX : Nat) (l : Locals) (o : Opt) : Locals :=
  if o.flag = 105 then { l with inputPath := strlcpy l.inputPath o.arg PATH_MAX }
  else if o.flag = 111 then { l with outputPath := strlcpy l.outputPath o.arg PATH_MAX }
  else if o.flag = 112 then { l with padPath := strlcpy l.padPath o.arg PATH_MAX }
  else l

/-- A command line that gives the input path twice and the output path once. -/
def sampleOptions : List Opt :=
  [⟨105, lit "in.txt", false⟩, ⟨111, lit "out", true⟩, ⟨105, lit "averyverylongpath", false⟩]

/-- The C string a buffer holds: the bytes before its first NUL. -/
def cstr (buf : List Nat) : List Nat := buf.takeWhile (fun b => b ≠ 0)

end Splinch


/-! ## `SplitDataXOR.c`: arithmetic of `char` -/

namespace SplitDataXOR

open CLib

theorem testBit_mod_256 (x i : Nat) :
    (x % 256).testBit i = (decide (i < 8) && x.testBit i) :=
  Nat.testBit_mod_two_pow x 8 i

theorem xor_mod_256 (x y : Nat) : (x ^^^ y) % 256 = (x % 256) ^^^ (y % 256) := by
  apply Nat.eq_of_testBit_eq
  intro i
  rw [Nat.testBit_xor, testBit_mod_256, testBit_mod_256, testBit_mod_256, Nat.testBit_xor]
  cases decide (i < 8) <;> simp

theorem promote_mod (c : Nat) (h : c < 256) : promote c % 256 = c := by
  unfold promote
  split <;> omega

/-- On 8-bit patterns the C expression is the bitwise exclusive-OR. -/
theorem xorChar_eq (a b : Nat) (ha : a < 256) (hb : b < 256) : xorChar a b = a ^^^ b := by
  unfold xorChar
  rw [xor_mod_256, promote_mod a ha, promote_mod b hb]

theorem xor_lt_256 (a b : Nat) (ha : a < 256) (hb : b < 256) : a ^^^ b < 256 :=
  @Nat.xor_lt_two_pow a b 8 ha hb

theorem lowByte_eq (c : Nat) (h : c < 256) : lowByte c = c := by
  unfold lowByte
  rw [show (255 : Nat) = 2 ^ 8 - 1 by norm_num, Nat.and_pow_two_sub_one_eq_mod]
  exact promote_mod c h

/-! ## `SplitDataXOR.c`: the loops -/

/-- Invariant rule for the `for` statement: a body that keeps `Inv` and never
faults on `[0, buflen)` makes the loop end, without fault, in a state
satisfying `Inv buflen`. -/
theorem forLoop_invariant {buflen : Nat} {body : Nat → State → Except Fault State}
    (Inv : Nat → State → Prop) (hmax : buflen ≤ INT_MAX)
    (hstep : ∀ j t, j < buflen → Inv j t → ∃ t', body j t = .ok t' ∧ Inv (j + 1) t') :
    ∀ fuel i s, i ≤ buflen → buflen - i ≤ fuel → Inv i s →
      ∃ s', forLoop buflen body fuel i s = .ok s' ∧ Inv buflen s' := by
  intro fuel
  induction fuel with
  | zero =>
    intro i s hi hfuel hinv
    have hib : i = buflen := by omega
    subst hib
    exact ⟨s, by simp [forLoop], hinv⟩
  | succ fuel ih =>
    intro i s hi hfuel hinv
    by_cases hlt : i < buflen
    · obtain ⟨t', hbody, hinv'⟩ := hstep i s hlt hinv
      have hmax' : i + 1 ≤ INT_MAX := by omega
      obtain ⟨s', hrun, hfin⟩ := ih (i + 1) t' (by omega) (by omega) hinv'
      exact ⟨s', by simp [forLoop, hlt, hbody, hmax', hrun], hfin⟩
    · have hib : i = buflen := by omega
      subst hib
      exact ⟨s, by simp [forLoop], hinv⟩

theorem set_take_append_drop (Z C : List Nat) (j v : Nat) (hZ : Z[j]? = some v)
    (hC : j < C.length) :
    (Z.take j ++ C.drop j).set j v = Z.take (j + 1) ++ C.drop (j + 1) := by
  have hj : j < Z.length := by
    by_contra hge
    rw [List.getElem?_eq_none (by omega)] at hZ
    cases hZ
  have hlen : (Z.take j).length = j := by simp; omega
  rw [List.set_append, hlen, if_neg (by omega), Nat.sub_self, List.take_succ, hZ,
    List.drop_eq_getElem_cons hC]
  simp only [List.set_cons_zero, Option.toList, List.append_assoc, List.singleton_append]

theorem length_take_append_drop (Z C : List Nat) (j : Nat) (hZ : j ≤ Z.length)
    (hC : j ≤ C.length) : (Z.take j ++ C.drop j).length = C.length := by
  simp; omega

theorem hexDump_take_succ (Z : List Nat) (j v : Nat) (hZ : Z[j]? = some v) :
    hexDump (Z.take (j + 1)) = hexDump (Z.take j) ++ fmt02x (lowByte v) := by
  simp [hexDump, List.take_succ, hZ]

theorem hexDump_append (a b : List Nat) : hexDump (a ++ b) = hexDump a ++ hexDump b := by
  simp [hexDump]

/-- The first loop, on buffers of at least `n` bytes: it stores the XOR of the
first `n` bytes of `P` and `K` at the start of the cipher buffer, leaves the
rest of that buffer and the other buffers alone, and prints the cipher. -/
theorem splitLoop_ok (P K C0 E out0 : List Nat) (n : Nat) (hmax : n ≤ INT_MAX)
    (hP : n ≤ P.length) (hK : n ≤ K.length) (hC : n ≤ C0.length) :
    forLoop n (splitBody P) n 0
        { xorKey := K, cypherText := C0, extractedPlainText := E, stdout := out0 } =
      .ok { xorKey := K,
            cypherText := (List.zipWith xorChar P K).take n ++ C0.drop n,
            extractedPlainText := E,
            stdout := out0 ++ hexDump ((List.zipWith xorChar P K).take n) } := by
  have key := @forLoop_invariant n (splitBody P)
    (fun j t => t = { xorKey := K,
                      cypherText := (List.zipWith xorChar P K).take j ++ C0.drop j,
                      extractedPlainText := E,
                      stdout := out0 ++ hexDump ((List.zipWith xorChar P K).take j) })
    hmax (by
      intro j t hj ht
      subst ht
      have hp : P[j]? = some P[j] := List.getElem?_eq_getElem (by omega)
      have hk : K[j]? = some K[j] := List.getElem?_eq_getElem (by omega)
      have hz : (List.zipWith xorChar P K)[j]? = some (xorChar P[j] K[j]) := by
        rw [List.getElem?_zipWith, hp, hk]
      have hlen : ((List.zipWith xorChar P K).take j ++ C0.drop j).length = C0.length :=
        length_take_append_drop _ _ _ (by simp; omega) (by omega)
      have hset := set_take_append_drop (List.zipWith xorChar P K) C0 j _ hz (by omega)
      have hget : ((List.zipWith xorChar P K).take (j + 1) ++ C0.drop (j + 1))[j]? =
          some (xorChar P[j] K[j]) := by
        rw [List.getElem?_append, if_pos (by simp; omega), List.getElem?_take,
          if_pos (by omega), hz]
      refine ⟨_, ?_, rfl⟩
      simp only [splitBody, load, store, hp, hk, hlen, hset, hget,
        hexDump_take_succ _ _ _ hz, List.append_assoc]
      rw [if_pos (by omega)]
      simp only [hget])
    n 0 { xorKey := K, cypherText := C0, extractedPlainText := E, stdout := out0 }
    (by omega) (by omega) (by simp [hexDump])
  obtain ⟨s', hrun, hs'⟩ := key
  rw [hrun, hs']

/-- The second loop, on buffers of at least `n` bytes: it stores the XOR of the
first `n` bytes of the cipher and the key at the start of
`extractedPlainText` and prints the key. -/
theorem recombineLoop_ok (K C E0 out0 : List Nat) (n : Nat) (hmax : n ≤ INT_MAX)
    (hK : n ≤ K.length) (hC : n ≤ C.length) (hE : n ≤ E0.length) :
    forLoop n recombineBody n 0
        { xorKey := K, cypherText := C, extractedPlainText := E0, stdout := out0 } =
      .ok { xorKey := K,
            cypherText := C,
            extractedPlainText := (List.zipWith xorChar C K).take n ++ E0.drop n,
            stdout := out0 ++ hexDump (K.take n) } := by
  have key := @forLoop_invariant n recombineBody
    (fun j t => t = { xorKey := K,
                      cypherText := C,
                      extractedPlainText := (List.zipWith xorChar C K).take j ++ E0.drop j,
                      stdout := out0 ++ hexDump (K.take j) })
    hmax (by
      intro j t hj ht
      subst ht
      have hc : C[j]? = some C[j] := List.getElem?_eq_getElem (by omega)
      have hk : K[j]? = some K[j] := List.getElem?_eq_getElem (by omega)
      have hz : (List.zipWith xorChar C K)[j]? = some (xorChar C[j] K[j]) := by
        rw [List.getElem?_zipWith, hc, hk]
      have hlen : ((List.zipWith xorChar C K).take j ++ E0.drop j).length = E0.length :=
        length_take_append_drop _ _ _ (by simp; omega) (by omega)
      have hset := set_take_append_drop (List.zipWith xorChar C K) E0 j _ hz (by omega)
      refine ⟨_, ?_, rfl⟩
      simp only [recombineBody, load, store, hc, hk, hlen, hset,
        hexDump_take_succ _ _ _ hk, List.append_assoc]
      rw [if_pos (by omega)])
    n 0 { xorKey := K, cypherText := C, extractedPlainText := E0, stdout := out0 }
    (by omega) (by omega) (by simp [hexDump])
  obtain ⟨s', hrun, hs'⟩ := key
  rw [hrun, hs']

/-- The third loop only prints the first `n` bytes of `P`. -/
theorem dumpLoop_ok (P : List Nat) (s : State) (n : Nat) (hmax : n ≤ INT_MAX)
    (hP : n ≤ P.length) :
    forLoop n (dumpBody P) n 0 s = .ok (emit (hexDump (P.take n)) s) := by
  have key := @forLoop_invariant n (dumpBody P)
    (fun j t => t = emit (hexDump (P.take j)) s)
    hmax (by
      intro j t hj ht
      subst ht
      have hp : P[j]? = some P[j] := List.getElem?_eq_getElem (by omega)
      refine ⟨_, ?_, rfl⟩
      simp only [dumpBody, load, hp, emit, hexDump_take_succ _ _ _ hp, List.append_assoc])
    n 0 s (by omega) (by omega) (by simp [hexDump, emit])
  obtain ⟨s', hrun, hs'⟩ := key
  rw [hrun, hs']

/-! ## `SplitDataXOR.c`: byte sequences and C strings -/

theorem zipWith_xorChar (a b : List Nat) (ha : IsBytes a) (hb : IsBytes b) :
    List.zipWith xorChar a b = xorBytes a b := by
  induction a generalizing b with
  | nil => simp [xorBytes]
  | cons x a ih =>
    cases b with
    | nil => simp [xorBytes]
    | cons y b =>
      have hx : x < 256 := ha x (by simp)
      have hy : y < 256 := hb y (by simp)
      have iha := ih b (fun z hz => ha z (by simp [hz])) (fun z hz => hb z (by simp [hz]))
      simp only [List.zipWith_cons_cons, iha, xorChar_eq x y hx hy, xorBytes]

theorem isBytes_xorBytes (a b : List Nat) (ha : IsBytes a) (hb : IsBytes b) :
    IsBytes (xorBytes a b) := by
  induction a generalizing b with
  | nil => intro z hz; simp [xorBytes] at hz
  | cons x a ih =>
    cases b with
    | nil => intro z hz; simp [xorBytes] at hz
    | cons y b =>
      intro z hz
      simp only [xorBytes, List.zipWith_cons_cons, List.mem_cons] at hz
      rcases hz with hz | hz
      · subst hz
        exact xor_lt_256 x y (ha x (by simp)) (hb y (by simp))
      · exact ih b (fun z hz => ha z (by simp [hz])) (fun z hz => hb z (by simp [hz])) z hz

theorem xorBytes_length (a b : List Nat) : (xorBytes a b).length = min a.length b.length := by
  simp [xorBytes]

theorem xorBytes_cancel (a b : List Nat) (h : a.length ≤ b.length) :
    xorBytes (xorBytes a b) b = a := by
  induction a generalizing b with
  | nil => simp [xorBytes]
  | cons x a ih =>
    cases b with
    | nil => simp at h
    | cons y b =>
      have := ih b (by simpa using h)
      simp only [xorBytes, List.zipWith_cons_cons] at this ⊢
      rw [this, Nat.xor_cancel_right]

theorem isBytes_take (l : List Nat) (n : Nat) (h : IsBytes l) : IsBytes (l.take n) :=
  fun b hb => h b (List.mem_of_mem_take hb)

theorem isBytes_append (a b : List Nat) (ha : IsBytes a) (hb : IsBytes b) : IsBytes (a ++ b) := by
  intro z hz
  rcases List.mem_append.mp hz with h | h
  · exact ha z h
  · exact hb z h

theorem strlen_lt (l : List Nat) (h : 0 ∈ l) : strlen l < l.length := by
  induction l with
  | nil => simp at h
  | cons x l ih =>
    by_cases hx : x = 0
    · subst hx; simp [strlen, List.takeWhile]
    · have h0 : 0 ∈ l := by
        rcases List.mem_cons.mp h with h | h
        · exact absurd h.symm hx
        · exact h
      have := ih h0
      simp only [strlen, List.takeWhile, ne_eq, hx, not_false_eq_true, decide_True,
        List.length_cons] at this ⊢
      omega

theorem mem_take_strlen (l : List Nat) (h : 0 ∈ l) : 0 ∈ l.take (strlen l + 1) := by
  induction l with
  | nil => simp at h
  | cons x l ih =>
    by_cases hx : x = 0
    · subst hx; simp
    · have h0 : 0 ∈ l := by
        rcases List.mem_cons.mp h with h | h
        · exact absurd h.symm hx
        · exact h
      have := ih h0
      simp only [strlen, List.takeWhile, ne_eq, hx, not_false_eq_true, decide_True,
        List.length_cons, List.take_succ_cons, List.mem_cons] at this ⊢
      exact Or.inr this

theorem takeWhile_take_strlen (l : List Nat) :
    (l.take (strlen l + 1)).takeWhile (fun b => b ≠ 0) = l.takeWhile (fun b => b ≠ 0) := by
  induction l with
  | nil => simp
  | cons x l ih =>
    by_cases hx : x = 0
    · subst hx; simp [List.takeWhile]
    · simp only [strlen, List.takeWhile, ne_eq, hx, not_false_eq_true, decide_True,
        List.length_cons, List.take_succ_cons] at ih ⊢
      rw [ih]

theorem buflenOf_le (literal : List Nat) : buflenOf literal ≤ (literal ++ [0]).length := by
  have := strlen_lt (literal ++ [0]) (by simp)
  unfold buflenOf
  omega

theorem buflenOf_of_not_mem (literal : List Nat) (h : 0 ∉ literal) :
    buflenOf literal = literal.length + 1 := by
  unfold buflenOf strlen
  rw [List.takeWhile_append_of_pos]
  · simp
  · intro b hb
    have : b ≠ 0 := fun hb0 => h (hb0 ▸ hb)
    simpa using this

/-! ## `SplitDataXOR.c`: the whole program -/

theorem take_zipWith_xorChar (P K : List Nat) (n : Nat) (hK : K.length = n) :
    (List.zipWith xorChar P K).take n = List.zipWith xorChar (P.take n) K := by
  rw [List.take_zipWith, List.take_of_length_le (l := K) (by omega)]

/-- Lines 25-49 on `n`-byte buffers: the three loops and the final print run
without fault; the cipher is the XOR of text and key and the extracted text is
the text. -/
theorem demo_ok (P K : List Nat) (n : Nat) (hmax : n ≤ INT_MAX) (hP : n ≤ P.length)
    (hK : K.length = n) (hPb : IsBytes (P.take n)) (hKb : IsBytes K) (h0 : 0 ∈ P.take n) :
    demo P n (initState K (List.replicate n 0) (List.replicate n 0)) =
      .ok { xorKey := K,
            cypherText := xorBytes (P.take n) K,
            extractedPlainText := P.take n,
            stdout := expectedStdout P K n } := by
  have hPn : (P.take n).length = n := by simp; omega
  have hdrop : (List.replicate n 0).drop n = [] := by simp
  have hC : (List.zipWith xorChar P K).take n ++ (List.replicate n 0).drop n =
      xorBytes (P.take n) K := by
    rw [hdrop, List.append_nil, take_zipWith_xorChar P K n hK, zipWith_xorChar _ _ hPb hKb]
  have hZ : (List.zipWith xorChar P K).take n = xorBytes (P.take n) K := by
    rw [take_zipWith_xorChar P K n hK, zipWith_xorChar _ _ hPb hKb]
  have hCl : (xorBytes (P.take n) K).length = n := by rw [xorBytes_length]; omega
  have hE : (List.zipWith xorChar (xorBytes (P.take n) K) K).take n ++
      (List.replicate n 0).drop n = P.take n := by
    rw [hdrop, List.append_nil, take_zipWith_xorChar _ K n hK,
      List.take_of_length_le (by omega),
      zipWith_xorChar _ _ (isBytes_xorBytes _ _ hPb hKb) hKb, xorBytes_cancel _ _ (by omega)]
  have h0P : 0 ∈ P := List.mem_of_mem_take h0
  have hKt : K.take n = K := List.take_of_length_le (by omega)
  unfold demo initState
  rw [splitLoop_ok P K _ _ _ n hmax hP (by omega) (by simp), hC]
  simp only [emit]
  rw [recombineLoop_ok K _ _ _ n hmax (by omega) (by omega) (by simp), hE]
  simp only []
  rw [dumpLoop_ok P _ n hmax hP]
  simp only [emit, printS, h0P, h0, if_true, hKt, hZ, expectedStdout, List.nil_append,
    List.append_assoc]

theorem getrandom_full (K : List Nat) (n : Nat) (h : n ≤ K.length) :
    getrandom (some K) (List.replicate n 0) n = ((n : Int), K.take n) := by
  simp [getrandom, List.take_take]
  omega

/-- The complete result of `main` when the three allocations succeed and the
random source delivers at least `buflen` bytes. -/
theorem main_ok (S K : List Nat) (env : Env) (hS : IsBytes S) (hK : IsBytes K)
    (hmax : buflenOf S ≤ INT_MAX) (hlen : buflenOf S ≤ K.length)
    (ha1 : env.xorKeyAlloc = true) (ha2 : env.cypherTextAlloc = true)
    (ha3 : env.extractedAlloc = true) (hr : env.random = some K) :
    main S env =
      .ok { status := 0, requested := buflenOf S, xorKeyValLen := buflenOf S,
            state := { xorKey := K.take (buflenOf S),
                       cypherText := xorBytes ((S ++ [0]).take (buflenOf S)) (K.take (buflenOf S)),
                       extractedPlainText := (S ++ [0]).take (buflenOf S),
                       stdout := expectedStdout (S ++ [0]) (K.take (buflenOf S)) (buflenOf S) },
            stderr := [] } := by
  have hP : IsBytes (S ++ [0]) := isBytes_append _ _ hS (by intro b hb; simp at hb; omega)
  have hdemo := demo_ok (S ++ [0]) (K.take (buflenOf S)) (buflenOf S) hmax (buflenOf_le S)
    (by simp; omega) (isBytes_take _ _ hP) (isBytes_take _ _ hK)
    (mem_take_strlen (S ++ [0]) (by simp))
  have hrand := getrandom_full K (buflenOf S) hlen
  unfold buflenOf at hdemo hrand ⊢
  simp only [main, calloc, ha1, ha2, ha3, hr, if_true, Nat.one_mul, hrand, lt_self_iff_false,
    if_false, hdemo]

theorem splitLoop_eq (A K : List Nat) (n : Nat) (hmax : n ≤ INT_MAX) (hA : n ≤ A.length)
    (hK : n ≤ K.length) :
    splitLoop A K n =
      .ok { xorKey := K,
            cypherText := List.zipWith xorChar (A.take n) (K.take n),
            extractedPlainText := List.replicate n 0,
            stdout := hexDump (List.zipWith xorChar (A.take n) (K.take n)) } := by
  unfold splitLoop initState
  rw [splitLoop_ok A K _ _ _ n hmax hA hK (by simp)]
  simp [List.take_zipWith]

theorem recombineLoop_eq (C K : List Nat) (n : Nat) (hmax : n ≤ INT_MAX) (hC : n ≤ C.length)
    (hK : n ≤ K.length) :
    recombineLoop C K n =
      .ok { xorKey := K,
            cypherText := C,
            extractedPlainText := List.zipWith xorChar (C.take n) (K.take n),
            stdout := hexDump (K.take n) } := by
  unfold recombineLoop initState
  rw [recombineLoop_ok K C _ _ n hmax hK hC (by simp)]
  simp [List.take_zipWith]

theorem xorBytes_cancel_left (a b : List Nat) (h : b.length ≤ a.length) :
    xorBytes a (xorBytes a b) = b := by
  induction a generalizing b with
  | nil =>
    cases b with
    | nil => simp [xorBytes]
    | cons y b => simp at h
  | cons x a ih =>
    cases b with
    | nil => simp [xorBytes]
    | cons y b =>
      have := ih b (by simpa using h)
      simp only [xorBytes, List.zipWith_cons_cons] at this ⊢
      rw [this, Nat.xor_cancel_left]

/-- A run of `main` in which an allocation fails. -/
theorem main_alloc_fail (S : List Nat) (env : Env)
    (h : ¬ (env.xorKeyAlloc = true ∧ env.cypherTextAlloc = true ∧ env.extractedAlloc = true)) :
    main S env =
      .ok { status := -1, requested := 0, xorKeyValLen := 0, state := initState [] [] [],
            stderr := [] } := by
  unfold main calloc
  cases h1 : env.xorKeyAlloc <;> cases h2 : env.cypherTextAlloc <;>
    cases h3 : env.extractedAlloc <;> simp_all

/-- A run of `main` in which `getrandom` returns less than `buflen`. -/
theorem main_short (S : List Nat) (env : Env)
    (ha1 : env.xorKeyAlloc = true) (ha2 : env.cypherTextAlloc = true)
    (ha3 : env.extractedAlloc = true)
    (hshort : ∀ bs, env.random = some bs → bs.length < buflenOf S) :
    ∃ key, main S env =
      .ok { status := -2, requested := buflenOf S,
            xorKeyValLen := (getrandom env.random (List.replicate (buflenOf S) 0) (buflenOf S)).1,
            state := initState key (List.replicate (buflenOf S) 0)
              (List.replicate (buflenOf S) 0),
            stderr := lit "Error in generating xor key\n" } ∧
      key.length = buflenOf S ∧
      (getrandom env.random (List.replicate (buflenOf S) 0) (buflenOf S)).1 < (buflenOf S : Int) := by
  have hlt : (getrandom env.random (List.replicate (buflenOf S) 0) (buflenOf S)).1
      < (buflenOf S : Int) := by
    cases hr : env.random with
    | none => simp [getrandom]; omega
    | some bs =>
      have := hshort bs hr
      simp [getrandom, List.take_take]
      omega
  refine ⟨(getrandom env.random (List.replicate (buflenOf S) 0) (buflenOf S)).2, ?_, ?_, hlt⟩
  · unfold buflenOf at hlt ⊢
    simp only [main, calloc, ha1, ha2, ha3, if_true, Nat.one_mul, hlt]
  · cases hr : env.random with
    | none => simp [getrandom]
    | some bs =>
      have := hshort bs hr
      simp [getrandom, List.take_take]

theorem xorBytes_getElem? (a b : List Nat) (i p k : Nat) (ha : a[i]? = some p)
    (hb : b[i]? = some k) : (xorBytes a b)[i]? = some (p ^^^ k) := by
  simp [xorBytes, List.getElem?_zipWith, ha, hb]

/-! ## `SplitDataXOR.c`: the specified properties -/

/-- C1 (round trip): for every literal of 8-bit bytes whose `buflen` is within
the range of the `int` loop counter, when the three allocations succeed and the
random source delivers a key `K` of `buflen` bytes, `main` ends with
`extractedPlainText` equal to `plainText` at every index below `buflen`, the
terminating NUL included; and for all byte sequences `A`, `B` of the same
length, the second loop run on the cipher that the first loop computes from
`A` and `B`, with the same `B`, gives back `A`. -/
theorem C1_round_trip (S K A B : List Nat) (env : Env)
    (hS : IsBytes S) (hK : IsBytes K) (hfit : buflenOf S ≤ INT_MAX)
    (hlen : K.length = buflenOf S)
    (ha1 : env.xorKeyAlloc = true) (ha2 : env.cypherTextAlloc = true)
    (ha3 : env.extractedAlloc = true) (hr : env.random = some K)
    (hA : IsBytes A) (hB : IsBytes B) (hAB : A.length = B.length)
    (hAfit : A.length ≤ INT_MAX) :
    (∃ o, main S env = .ok o ∧ o.status = 0 ∧ o.state.xorKey = K ∧
      o.state.extractedPlainText.length = buflenOf S ∧
      (∀ i, i < buflenOf S → o.state.extractedPlainText[i]? = (S ++ [0])[i]?) ∧
      (0 ∉ S → o.state.extractedPlainText = S ++ [0])) ∧
    (∃ c, splitLoop A B A.length = .ok c ∧
      ∃ e, recombineLoop c.cypherText B A.length = .ok e ∧ e.extractedPlainText = A) := by
  constructor
  · have hle := buflenOf_le S
    have hKt : K.take (buflenOf S) = K := List.take_of_length_le (by omega)
    refine ⟨_, main_ok S K env hS hK hfit (by omega) ha1 ha2 ha3 hr, rfl, hKt, ?_, ?_, ?_⟩
    · simp only [List.length_take]; omega
    · intro i hi
      simp only [List.getElem?_take, hi, if_true]
    · intro h0
      simp only [buflenOf_of_not_mem S h0]
      exact List.take_of_length_le (by simp)
  · have hc := splitLoop_eq A B A.length hAfit (Nat.le_refl _) (by omega)
    have hAt : A.take A.length = A := List.take_length A
    have hBt : B.take A.length = B := List.take_of_length_le (by omega)
    rw [hAt, hBt, zipWith_xorChar A B hA hB] at hc
    refine ⟨_, hc, ?_⟩
    have hcl : (xorBytes A B).length = A.length := by rw [xorBytes_length]; omega
    have he := recombineLoop_eq (xorBytes A B) B A.length hAfit (by omega) (by omega)
    rw [List.take_of_length_le (by omega), hBt,
      zipWith_xorChar _ B (isBytes_xorBytes A B hA hB) hB, xorBytes_cancel A B (by omega)] at he
    exact ⟨_, he, rfl⟩

/-- C2 (cipher definition): for every literal of 8-bit bytes whose `buflen` is
within the range of the `int` loop counter, when the allocations succeed and
the random source delivers a key `K` of `N = buflen` bytes, the cipher buffer
`main` computes has
`N` bytes and its byte at every index `i < N` is `plainText[i] XOR K[i]`; and
the first loop, run on a cipher buffer `C0` of any size at least `N`, leaves
every byte of `C0` from index `N` on, the key and `extractedPlainText` as they
were. -/
theorem C2_cipher_definition (S K C0 E : List Nat) (env : Env)
    (hS : IsBytes S) (hK : IsBytes K) (hfit : buflenOf S ≤ INT_MAX)
    (hlen : K.length = buflenOf S)
    (ha1 : env.xorKeyAlloc = true) (ha2 : env.cypherTextAlloc = true)
    (ha3 : env.extractedAlloc = true) (hr : env.random = some K)
    (hC0 : buflenOf S ≤ C0.length) :
    (∃ o, main S env = .ok o ∧ o.state.cypherText.length = buflenOf S ∧
      ∀ i, i < buflenOf S → ∃ p k, (S ++ [0])[i]? = some p ∧ K[i]? = some k ∧
        o.state.cypherText[i]? = some (p ^^^ k)) ∧
    (∃ s, forLoop (buflenOf S) (splitBody (S ++ [0])) (buflenOf S) 0 (initState K C0 E) = .ok s ∧
      s.cypherText.length = C0.length ∧
      (∀ i, buflenOf S ≤ i → s.cypherText[i]? = C0[i]?) ∧
      s.xorKey = K ∧ s.extractedPlainText = E) := by
  have hle := buflenOf_le S
  have hle' : buflenOf S ≤ S.length + 1 := by simpa using hle
  have hKt : K.take (buflenOf S) = K := List.take_of_length_le (by omega)
  constructor
  · refine ⟨_, main_ok S K env hS hK hfit (by omega) ha1 ha2 ha3 hr, ?_, ?_⟩
    · simp only [xorBytes_length, List.length_take]; omega
    · intro i hi
      have hp : (S ++ [0])[i]? = some (S ++ [0])[i] := List.getElem?_eq_getElem (by omega)
      have hk : K[i]? = some K[i] := List.getElem?_eq_getElem (by omega)
      refine ⟨_, _, hp, hk, ?_⟩
      simp only [hKt]
      exact xorBytes_getElem? _ _ i _ _ (by simp only [List.getElem?_take, hi, if_true, hp]) hk
  · refine ⟨_, splitLoop_ok (S ++ [0]) K C0 E [] (buflenOf S) hfit hle (by omega) hC0, ?_, ?_,
      rfl, rfl⟩
    · exact length_take_append_drop _ _ _ (by simp; omega) hC0
    · intro i hi
      have hzl : ((List.zipWith xorChar (S ++ [0]) K).take (buflenOf S)).length = buflenOf S := by
        simp; omega
      simp only [List.getElem?_append, hzl, if_neg (by omega : ¬ i < buflenOf S),
        List.getElem?_drop]
      congr 1
      omega

theorem splitLoop_cipher (S K : List Nat) (hS : IsBytes S) (hK : IsBytes K)
    (hlen : K.length = S.length) (hfit : S.length ≤ INT_MAX) :
    (splitLoop S K S.length).map State.cypherText = .ok (xorBytes S K) := by
  rw [splitLoop_eq S K S.length hfit (Nat.le_refl _) (by omega), List.take_length,
    List.take_of_length_le (by omega), zipWith_xorChar S K hS hK]
  rfl

theorem unique_key (S C : List Nat) (hS : IsBytes S) (hC : IsBytes C)
    (hlen : C.length = S.length) (hfit : S.length ≤ INT_MAX) (K : List Nat) :
    (K.length = S.length ∧ IsBytes K ∧
      (splitLoop S K S.length).map State.cypherText = .ok C) ↔ K = xorBytes S C := by
  constructor
  · rintro ⟨hKl, hKb, hrun⟩
    rw [splitLoop_cipher S K hS hKb hKl hfit] at hrun
    have hx : xorBytes S K = C := by injection hrun
    rw [← hx, xorBytes_cancel_left S K (by omega)]
  · intro hK
    subst hK
    have hl : (xorBytes S C).length = S.length := by rw [xorBytes_length]; omega
    refine ⟨hl, isBytes_xorBytes S C hS hC, ?_⟩
    rw [splitLoop_cipher S _ hS (isBytes_xorBytes S C hS hC) hl hfit,
      xorBytes_cancel_left S C (by omega)]

/-- C3 (a share alone reveals nothing): for byte sequences `S1`, `S2` and `C`
of one length `N` (at most `INT_MAX`, the range of the loop counter), the keys
`K` of length `N` for which the first loop computes the cipher `C` from `S1`
are exactly the one key `S1 XOR C`; so for each of the two secrets there is
exactly one such key, and every key of length `N` gives a cipher of length `N`:
for a fixed secret the map from keys to ciphers is a bijection. -/
theorem C3_share_reveals_nothing (S1 S2 C : List Nat) (hS1 : IsBytes S1) (hS2 : IsBytes S2)
    (hC : IsBytes C) (hlen1 : C.length = S1.length) (hlen2 : C.length = S2.length)
    (hfit : C.length ≤ INT_MAX) :
    (∀ K, (K.length = S1.length ∧ IsBytes K ∧
        (splitLoop S1 K S1.length).map State.cypherText = .ok C) ↔ K = xorBytes S1 C) ∧
    (∃! K, K.length = S1.length ∧ IsBytes K ∧
        (splitLoop S1 K S1.length).map State.cypherText = .ok C) ∧
    (∃! K, K.length = S2.length ∧ IsBytes K ∧
        (splitLoop S2 K S2.length).map State.cypherText = .ok C) ∧
    (∀ K, K.length = S1.length → IsBytes K →
      ∃ C', C'.length = S1.length ∧ IsBytes C' ∧
        (splitLoop S1 K S1.length).map State.cypherText = .ok C') := by
  have h1 := unique_key S1 C hS1 hC hlen1 (by omega)
  have h2 := unique_key S2 C hS2 hC hlen2 (by omega)
  refine ⟨h1, ⟨xorBytes S1 C, (h1 _).mpr rfl, fun K hK => (h1 K).mp hK⟩,
    ⟨xorBytes S2 C, (h2 _).mpr rfl, fun K hK => (h2 K).mp hK⟩, ?_⟩
  intro K hKl hKb
  exact ⟨xorBytes S1 K, by rw [xorBytes_length]; omega, isBytes_xorBytes S1 K hS1 hKb,
    splitLoop_cipher S1 K hS1 hKb hKl (by omega)⟩

/-- C4 (entropy failure): with the three buffers allocated, a random source
that fails or delivers fewer than `buflen` bytes makes `main` return `-2`, a
value other than `0` and `-1`, with the cipher buffer still zeroed and nothing
on standard output; a source that delivers at least `buflen` bytes makes it
return `0`; and a failed allocation makes it return `-1`. -/
theorem C4_entropy_failure (S K : List Nat) (short full noMem : Env)
    (hs1 : short.xorKeyAlloc = true) (hs2 : short.cypherTextAlloc = true)
    (hs3 : short.extractedAlloc = true)
    (hshort : ∀ bs, short.random = some bs → bs.length < buflenOf S)
    (hf1 : full.xorKeyAlloc = true) (hf2 : full.cypherTextAlloc = true)
    (hf3 : full.extractedAlloc = true)
    (hfull : full.random = some K) (hlen : buflenOf S ≤ K.length)
    (hS : IsBytes S) (hK : IsBytes K) (hfit : buflenOf S ≤ INT_MAX)
    (hno : ¬ (noMem.xorKeyAlloc = true ∧ noMem.cypherTextAlloc = true ∧
      noMem.extractedAlloc = true)) :
    (∃ o, main S short = .ok o ∧ o.status = -2 ∧ o.status ≠ 0 ∧ o.status ≠ -1 ∧
      o.xorKeyValLen < (buflenOf S : Int) ∧
      o.state.cypherText = List.replicate (buflenOf S) 0 ∧
      o.state.extractedPlainText = List.replicate (buflenOf S) 0 ∧
      o.state.stdout = [] ∧ o.stderr = lit "Error in generating xor key\n") ∧
    (∃ o, main S full = .ok o ∧ o.status = 0 ∧ o.xorKeyValLen = (buflenOf S : Int)) ∧
    (∃ o, main S noMem = .ok o ∧ o.status = -1) := by
  refine ⟨?_, ⟨_, main_ok S K full hS hK hfit hlen hf1 hf2 hf3 hfull, rfl, rfl⟩,
    ⟨_, main_alloc_fail S noMem hno, rfl⟩⟩
  obtain ⟨key, hrun, _, hlt⟩ := main_short S short hs1 hs2 hs3 hshort
  exact ⟨_, hrun, rfl, by simp, by simp, hlt, rfl, rfl, rfl, rfl⟩

/-- C5 (length preservation, amended): when the allocations succeed and the
random source delivers at least `buflen` bytes, the number of bytes `main` asks
of the random source, the key and the cipher all have exactly
`strlen(plainText) + 1` bytes, which is the length of the literal and one more
when the literal has no NUL inside, and `1` for the empty literal. -/
theorem C5_length_preservation (S K : List Nat) (env : Env)
    (hS : IsBytes S) (hK : IsBytes K) (hfit : buflenOf S ≤ INT_MAX)
    (hlen : buflenOf S ≤ K.length)
    (ha1 : env.xorKeyAlloc = true) (ha2 : env.cypherTextAlloc = true)
    (ha3 : env.extractedAlloc = true) (hr : env.random = some K) :
    ∃ o, main S env = .ok o ∧
      o.requested = strlen (S ++ [0]) + 1 ∧
      o.state.xorKey.length = strlen (S ++ [0]) + 1 ∧
      o.state.cypherText.length = strlen (S ++ [0]) + 1 ∧
      (0 ∉ S → strlen (S ++ [0]) + 1 = S.length + 1) ∧
      (S = [] → o.requested = 1 ∧ o.state.xorKey.length = 1 ∧
        o.state.cypherText.length = 1) := by
  have hle := buflenOf_le S
  have hkey : (K.take (buflenOf S)).length = strlen (S ++ [0]) + 1 := by
    simp only [List.length_take]; unfold buflenOf at hlen ⊢; omega
  have hcipher : (xorBytes ((S ++ [0]).take (buflenOf S)) (K.take (buflenOf S))).length =
      strlen (S ++ [0]) + 1 := by
    simp only [xorBytes_length, List.length_take]; unfold buflenOf at hlen hle ⊢; omega
  refine ⟨_, main_ok S K env hS hK hfit hlen ha1 ha2 ha3 hr, rfl, hkey, hcipher, ?_, ?_⟩
  · intro h0
    exact buflenOf_of_not_mem S h0
  · intro hnil
    subst hnil
    exact ⟨rfl, hkey, hcipher⟩

/-- C5 as stated fails: for the empty secret `main` asks the random source for
one byte and computes a cipher of one byte, not of zero bytes. -/
theorem C5_counterexample :
    ∃ o, main [] (envWith [7]) = .ok o ∧
      o.requested = 1 ∧ o.state.xorKey.length = 1 ∧ o.state.cypherText.length = 1 ∧
      o.requested ≠ ([] : List Nat).length ∧
      o.state.cypherText.length ≠ ([] : List Nat).length :=
  ⟨_, rfl, rfl, rfl, rfl, by decide, by decide⟩

theorem splitLoop_full (A B : List Nat) (h : A.length = B.length) (hfit : A.length ≤ INT_MAX) :
    splitLoop A B A.length =
      .ok { xorKey := B,
            cypherText := List.zipWith xorChar A B,
            extractedPlainText := List.replicate A.length 0,
            stdout := hexDump (List.zipWith xorChar A B) } := by
  rw [splitLoop_eq A B A.length hfit (Nat.le_refl _) (by omega), List.take_length,
    List.take_of_length_le (by omega)]

theorem zipWith_flatten (chunks : List (List Nat × List Nat))
    (hch : ∀ c ∈ chunks, c.1.length = c.2.length) :
    List.zipWith xorChar (chunks.map Prod.fst).flatten (chunks.map Prod.snd).flatten =
      (chunks.map (fun c => List.zipWith xorChar c.1 c.2)).flatten ∧
    (chunks.map Prod.fst).flatten.length = (chunks.map Prod.snd).flatten.length := by
  induction chunks with
  | nil => simp
  | cons c cs ih =>
    have hc := hch c (by simp)
    obtain ⟨ih1, ih2⟩ := ih (fun d hd => hch d (by simp [hd]))
    constructor
    · simp only [List.map_cons, List.flatten_cons]
      rw [List.zipWith_append _ _ _ _ _ hc, ih1]
    · simp only [List.map_cons, List.flatten_cons, List.length_append, hc, ih2]

theorem splitChunks_eq (chunks : List (List Nat × List Nat))
    (hch : ∀ c ∈ chunks, c.1.length = c.2.length)
    (hfit : (chunks.map Prod.fst).flatten.length ≤ INT_MAX) :
    splitChunks chunks = .ok (chunks.map (fun c => List.zipWith xorChar c.1 c.2)).flatten := by
  induction chunks with
  | nil => simp [splitChunks]
  | cons c cs ih =>
    have hc := hch c (by simp)
    simp only [List.map_cons, List.flatten_cons, List.length_append] at hfit
    have ih' := ih (fun d hd => hch d (by simp [hd])) (by omega)
    simp only [splitChunks, splitLoop_full c.1 c.2 hc (by omega), ih', List.map_cons,
      List.flatten_cons]

/-- C6 (streaming equivalence): within the range of the `int` loop counter,
the first loop run on the concatenations `A1 ++ A2` and `B1 ++ B2` computes and
prints the concatenation of what it
computes and prints on `(A1, B1)` and on `(A2, B2)`; and for any sequence of
aligned chunks, the loop run once on the concatenated chunks computes the
cipher that running it chunk by chunk gives. -/
theorem C6_streaming_equivalence (A1 B1 A2 B2 : List Nat)
    (chunks : List (List Nat × List Nat))
    (h1 : A1.length = B1.length) (h2 : A2.length = B2.length)
    (hfit : A1.length + A2.length ≤ INT_MAX)
    (hch : ∀ c ∈ chunks, c.1.length = c.2.length)
    (hchfit : (chunks.map Prod.fst).flatten.length ≤ INT_MAX) :
    (∃ s s1 s2, splitLoop (A1 ++ A2) (B1 ++ B2) (A1.length + A2.length) = .ok s ∧
      splitLoop A1 B1 A1.length = .ok s1 ∧ splitLoop A2 B2 A2.length = .ok s2 ∧
      s.cypherText = s1.cypherText ++ s2.cypherText ∧ s.stdout = s1.stdout ++ s2.stdout) ∧
    (∃ s, splitLoop (chunks.map Prod.fst).flatten (chunks.map Prod.snd).flatten
        (chunks.map Prod.fst).flatten.length = .ok s ∧
      splitChunks chunks = .ok s.cypherText) := by
  constructor
  · have h := splitLoop_full (A1 ++ A2) (B1 ++ B2) (by simp [h1, h2]) (by simpa using hfit)
    rw [List.length_append] at h
    refine ⟨_, _, _, h, splitLoop_full A1 B1 h1 (by omega), splitLoop_full A2 B2 h2 (by omega),
      ?_, ?_⟩
    · exact List.zipWith_append _ _ _ _ _ h1
    · simp only [List.zipWith_append _ _ _ _ _ h1, hexDump_append]
  · obtain ⟨hz, hl⟩ := zipWith_flatten chunks hch
    refine ⟨_, splitLoop_full _ _ hl hchfit, ?_⟩
    rw [splitChunks_eq chunks hch hchfit, hz]

/-- C7 (concrete scenario): for the literal `"He"` and a random source whose
delivery begins with the bytes `01 02`, `main` computes a cipher that begins
with `49 67` and extracts `48 65` and the terminator; and the first loop on
`[48, 65]` and `[01, 02]` gives exactly `[49, 67]`, from which the second loop
with `[01, 02]` gives back `[48, 65]`. -/
theorem C7_concrete_scenario (rest : List Nat) (hrest : IsBytes rest) (hne : rest ≠ []) :
    (∃ o, main [0x48, 0x65] (envWith (0x01 :: 0x02 :: rest)) = .ok o ∧ o.status = 0 ∧
      o.state.cypherText.take 2 = [0x49, 0x67] ∧
      o.state.extractedPlainText = [0x48, 0x65, 0]) ∧
    (∃ c, splitLoop [0x48, 0x65] [0x01, 0x02] 2 = .ok c ∧ c.cypherText = [0x49, 0x67] ∧
      ∃ e, recombineLoop c.cypherText [0x01, 0x02] 2 = .ok e ∧
        e.extractedPlainText = [0x48, 0x65]) := by
  constructor
  · cases rest with
    | nil => exact absurd rfl hne
    | cons r rs =>
      have hb : buflenOf [0x48, 0x65] = 3 := by decide
      have hK : IsBytes (0x01 :: 0x02 :: r :: rs) := by
        intro b hbm
        rcases List.mem_cons.mp hbm with h | h
        · omega
        · rcases List.mem_cons.mp h with h | h
          · omega
          · exact hrest b h
      have h := main_ok [0x48, 0x65] (0x01 :: 0x02 :: r :: rs) (envWith (0x01 :: 0x02 :: r :: rs))
        (by decide) hK (by decide) (by rw [hb]; simp) rfl rfl rfl rfl
      rw [hb] at h
      exact ⟨_, h, rfl, rfl, rfl⟩
  · exact ⟨_, rfl, rfl, _, rfl, rfl⟩

/-- The `for` statement runs its body at indices below `buflen` only: two
bodies that agree there give the same loop. -/
theorem forLoop_congr (buflen : Nat) (body body' : Nat → State → Except Fault State)
    (h : ∀ j s, j < buflen → body j s = body' j s) :
    ∀ fuel i s, forLoop buflen body fuel i s = forLoop buflen body' fuel i s := by
  intro fuel
  induction fuel with
  | zero => intro i s; rfl
  | succ fuel ih =>
    intro i s
    by_cases hi : i < buflen
    · simp only [forLoop, hi, if_true, h i s hi]
      cases body' i s with
      | error e => rfl
      | ok s' =>
        simp only []
        split
        · exact ih _ _
        · rfl
    · simp only [forLoop, hi, if_false]

/-- C9 (no buffer overrun): for every literal whose `buflen` fits an `int` and
every answer of the C library, `main` runs to its `return` without reading or
writing outside a buffer and without overflowing its loop counter; unless an
allocation failed, it asks the random source for exactly `buflen` bytes and its
three buffers have `buflen` bytes, `buflen` being at most the size of the
literal with its terminator; the loops use no index of `buflen` or more (what
the body does there does not matter to the loop), and such an index would
have been a fault in the first and in the second loop. -/
theorem C9_no_buffer_overrun (S : List Nat) (env : Env) (hS : IsBytes S)
    (hR : ∀ bs, env.random = some bs → IsBytes bs) (hfit : buflenOf S ≤ INT_MAX) :
    (∃ o, main S env = .ok o ∧
      (o.status = -1 ∨
        (o.requested = buflenOf S ∧ o.state.xorKey.length = buflenOf S ∧
         o.state.cypherText.length = buflenOf S ∧
         o.state.extractedPlainText.length = buflenOf S))) ∧
    buflenOf S = strlen (S ++ [0]) + 1 ∧ buflenOf S ≤ (S ++ [0]).length ∧
    (∀ (body body' : Nat → State → Except Fault State) (fuel : Nat) (s : State),
      (∀ j t, j < buflenOf S → body j t = body' j t) →
      forLoop (buflenOf S) body fuel 0 s = forLoop (buflenOf S) body' fuel 0 s) ∧
    (∀ i s, buflenOf S ≤ i → s.xorKey.length = buflenOf S →
      s.cypherText.length = buflenOf S →
      splitBody (S ++ [0]) i s = .error .outOfBounds ∧
      recombineBody i s = .error .outOfBounds) := by
  have hle := buflenOf_le S
  refine ⟨?_, rfl, hle, ?_, ?_⟩
  · by_cases hall : env.xorKeyAlloc = true ∧ env.cypherTextAlloc = true ∧
        env.extractedAlloc = true
    · obtain ⟨ha1, ha2, ha3⟩ := hall
      by_cases hshort : ∀ bs, env.random = some bs → bs.length < buflenOf S
      · obtain ⟨key, hrun, hkey, _⟩ := main_short S env ha1 ha2 ha3 hshort
        exact ⟨_, hrun, Or.inr ⟨rfl, hkey, by simp [initState], by simp [initState]⟩⟩
      · push_neg at hshort
        obtain ⟨bs, hbs, hlen⟩ := hshort
        refine ⟨_, main_ok S bs env hS (hR bs hbs) hfit hlen ha1 ha2 ha3 hbs, Or.inr ⟨rfl, ?_, ?_, ?_⟩⟩
        · simp only [List.length_take]; omega
        · simp only [xorBytes_length, List.length_take]; omega
        · simp only [List.length_take]; omega
    · exact ⟨_, main_alloc_fail S env hall, Or.inl rfl⟩
  · intro body body' fuel s h
    exact forLoop_congr (buflenOf S) body body' h fuel 0 s
  · intro i s hi hk hc
    have hkn : s.xorKey[i]? = none := List.getElem?_eq_none (by omega)
    have hcn : s.cypherText[i]? = none := List.getElem?_eq_none (by omega)
    constructor
    · simp only [splitBody, load, hkn]
      cases (S ++ [0])[i]? <;> rfl
    · simp only [recombineBody, load, hkn, hcn]

end SplitDataXOR

/-! ## `splinch.c`: option parsing -/

namespace Splinch

open CLib

theorem optstring_eq : optstring = [105, 58, 111, 58, 112, 58] := by decide

/-- What `getopt` does with an option character under `"i:o:p:"`: `i`, `o` and
`p` take the rest of the argument or the next argument, any other character is
an invalid option. -/
theorem shortOption_optstring (c : Nat) (cs : List Nat) (rest : List (List Nat)) :
    shortOption optstring c cs rest =
      if c = 105 ∨ c = 111 ∨ c = 112 then
        if cs ≠ [] then { opt := c, optarg := some cs, diag := none, next := ⟨rest, []⟩ }
        else
          match rest with
          | [] => { opt := 63, optarg := none, diag := some (.requiresArgument c),
                    next := ⟨[], []⟩ }
          | a :: rest' => { opt := c, optarg := some a, diag := none, next := ⟨rest', []⟩ }
      else { opt := 63, optarg := none, diag := some (.invalidOption c), next := ⟨rest, cs⟩ } := by
  rw [optstring_eq]
  by_cases h1 : c = 105
  · subst h1; cases rest <;> simp [shortOption, lookup, List.dropWhile]
  by_cases h2 : c = 111
  · subst h2; cases rest <;> simp [shortOption, lookup, List.dropWhile]
  by_cases h3 : c = 112
  · subst h3; cases rest <;> simp [shortOption, lookup, List.dropWhile]
  by_cases h4 : c = 58
  · subst h4; simp [shortOption, lookup, List.dropWhile]
  · have e1 : (105 = c) = False := by simp; omega
    have e2 : (111 = c) = False := by simp; omega
    have e3 : (112 = c) = False := by simp; omega
    have e4 : (58 = c) = False := by simp; omega
    simp [shortOption, lookup, List.dropWhile, h1, h2, h3, h4, e1, e2, e3, e4]

theorem shortOption_cases (c : Nat) (cs : List Nat) (rest : List (List Nat)) :
    (shortOption optstring c cs rest).next.size
        < cs.length + 1 + (rest.map (fun a => a.length + 1)).sum ∧
      (shortOption optstring c cs rest).Good := by
  rw [shortOption_optstring]
  by_cases hc : c = 105 ∨ c = 111 ∨ c = 112
  · rw [if_pos hc]
    by_cases hcs : cs ≠ []
    · rw [if_pos hcs]
      refine ⟨?_, Or.inr ⟨?_, ?_, _, rfl⟩⟩
      · simp only [Getopt.size, List.length_nil]; omega
      · rcases hc with h | h | h <;> subst h <;> simp
      · simp [Reply.Rejected]
    · rw [if_neg hcs]
      cases rest with
      | nil =>
        refine ⟨?_, Or.inl ⟨rfl, Or.inr ⟨c, rfl, hc⟩⟩⟩
        simp only [Getopt.size, List.length_nil, List.map_nil, List.sum_nil]; omega
      | cons a rest' =>
        refine ⟨?_, Or.inr ⟨?_, ?_, _, rfl⟩⟩
        · simp only [Getopt.size, List.length_nil, List.map_cons, List.sum_cons]; omega
        · rcases hc with h | h | h <;> subst h <;> simp
        · simp [Reply.Rejected]
  · rw [if_neg hc]
    push_neg at hc
    refine ⟨?_, Or.inl ⟨rfl, Or.inl ⟨c, rfl, hc⟩⟩⟩
    simp only [Getopt.size]; omega

theorem sum_dropWhile_le (l : List (List Nat)) (p : List Nat → Bool) :
    ((l.dropWhile p).map (fun a => a.length + 1)).sum ≤ (l.map (fun a => a.length + 1)).sum := by
  induction l with
  | nil => simp
  | cons a l ih =>
    simp only [List.dropWhile]
    cases p a
    · simp
    · simp only [List.map_cons, List.sum_cons]
      omega

/-- Every call of `getopt` either ends the options or passes at least one
byte of the argument vector and gives a good reply. -/
theorem getopt_cases (permute : Bool) (g : Getopt) :
    ((getopt permute optstring g).opt = -1 ∧ ¬ (getopt permute optstring g).Rejected) ∨
    ((getopt permute optstring g).next.size < g.size ∧ (getopt permute optstring g).Good) := by
  obtain ⟨rest, nextchar⟩ := g
  cases nextchar with
  | cons c cs =>
    right
    have h := shortOption_cases c cs rest
    simp only [getopt, Getopt.size, List.length_cons]
    exact h
  | nil =>
    have hsum := sum_dropWhile_le rest isNonOption
    have hle : ((if permute = true then rest.dropWhile isNonOption else rest).map
        (fun a => a.length + 1)).sum ≤ (rest.map (fun a => a.length + 1)).sum := by
      split
      · exact hsum
      · exact Nat.le_refl _
    simp only [getopt, Getopt.size, List.length_nil, Nat.zero_add]
    generalize (if permute = true then rest.dropWhile isNonOption else rest) = rest' at hle
    cases rest' with
    | nil => left; simp [Reply.Rejected]
    | cons a rest2 =>
      by_cases hdd : a = [45, 45]
      · left; simp [hdd, Reply.Rejected]
      · simp only [hdd, if_false]
        simp only [List.map_cons, List.sum_cons] at hle
        split
        · rename_i c cs
          right
          have h := shortOption_cases c cs rest2
          have h1 := h.1
          simp only [Getopt.size] at h1
          simp only [List.length_cons] at hle
          exact ⟨by omega, h.2⟩
        · left; simp [Reply.Rejected]

/-! ## `splinch.c`: the option loop -/

theorem strlcpy_mem_zero (dst src : List Nat) (size : Nat) (h : 0 < size) :
    0 ∈ strlcpy dst src size := by
  simp [strlcpy, Nat.ne_of_gt h]

theorem strlen_of_not_mem (src : List Nat) (h : 0 ∉ src) : strlen (src ++ [0]) = src.length := by
  unfold strlen
  rw [List.takeWhile_append_of_pos]
  · simp
  · intro b hb
    have : b ≠ 0 := fun hb0 => h (hb0 ▸ hb)
    simpa using this

theorem strlen_append_zero_le (src : List Nat) : strlen (src ++ [0]) ≤ src.length := by
  have := SplitDataXOR.strlen_lt (src ++ [0]) (by simp)
  simp only [List.length_append, List.length_singleton] at this
  omega

theorem strlcpy_length (dst src : List Nat) (size : Nat) (h : dst.length = size) :
    (strlcpy dst src size).length = size := by
  unfold strlcpy
  by_cases hs : size = 0
  · simp [hs, h]
  · have := strlen_append_zero_le src
    simp only [hs, if_false, List.length_append, List.length_take, List.length_singleton,
      List.length_drop]
    omega

theorem cstr_strlcpy (dst src : List Nat) (size : Nat) (h0 : 0 ∉ src) (h : 0 < size) :
    cstr (strlcpy dst src size) = src.take (size - 1) := by
  have hne : ∀ b ∈ src.take (size - 1), (fun b => decide (b ≠ 0)) b = true := by
    intro b hb
    have : b ≠ 0 := fun hb0 => h0 (hb0 ▸ List.mem_of_mem_take hb)
    simpa using this
  have hmin : src.take (min src.length (size - 1)) = src.take (size - 1) := by
    rcases Nat.le_total src.length (size - 1) with hle | hle
    · rw [Nat.min_eq_left hle, List.take_of_length_le (Nat.le_refl _),
        List.take_of_length_le hle]
    · rw [Nat.min_eq_right hle]
  unfold cstr strlcpy
  rw [if_neg (by omega), strlen_of_not_mem src h0]
  simp only [hmin, List.append_assoc]
  rw [List.takeWhile_append_of_pos hne]
  simp

/-- With enough fuel the option loop ends without fault, through the `default`
branch exactly when one of the replies of `getopt` is a rejection, and its
buffers stay NUL-terminated. -/
theorem optionLoop_total (PATH_MAX : Nat) (permute : Bool) (hP : 0 < PATH_MAX) :
    ∀ fuel g l, g.size < fuel → l.Terminated →
      ∃ l', l'.Terminated ∧
        ((optionLoop PATH_MAX permute fuel g l = .ok (.usage l') ∧
            ∃ r ∈ reports permute fuel g, r.Rejected) ∨
         (optionLoop PATH_MAX permute fuel g l = .ok (.done l') ∧
            ∀ r ∈ reports permute fuel g, ¬ r.Rejected)) := by
  intro fuel
  induction fuel with
  | zero => intro g l hg; omega
  | succ fuel ih =>
    intro g l hg hl
    rcases getopt_cases permute g with ⟨hend, _⟩ | ⟨hsize, hgood⟩
    · exact ⟨l, hl, Or.inr ⟨by simp [optionLoop, hend], by simp [reports, hend]⟩⟩
    · rcases hgood with ⟨h63, hrej⟩ | ⟨hflag, hnrej, a, ha⟩
      · exact ⟨l, hl, Or.inl ⟨by simp [optionLoop, h63], _, by simp [reports, h63], hrej⟩⟩
      · have hne : (getopt permute optstring g).opt ≠ -1 := by
          rcases hflag with h | h | h <;> rw [h] <;> decide
        have hrep : reports permute (fuel + 1) g =
            getopt permute optstring g :: reports permute fuel (getopt permute optstring g).next := by
          simp [reports, hne]
        have transfer : ∀ l1 : Locals, l1.Terminated →
            optionLoop PATH_MAX permute (fuel + 1) g l =
              optionLoop PATH_MAX permute fuel (getopt permute optstring g).next l1 →
            ∃ l', l'.Terminated ∧
              ((optionLoop PATH_MAX permute (fuel + 1) g l = .ok (.usage l') ∧
                  ∃ r ∈ reports permute (fuel + 1) g, r.Rejected) ∨
               (optionLoop PATH_MAX permute (fuel + 1) g l = .ok (.done l') ∧
                  ∀ r ∈ reports permute (fuel + 1) g, ¬ r.Rejected)) := by
          intro l1 hl1 heq
          obtain ⟨l', hl', hcase⟩ := ih (getopt permute optstring g).next l1 (by omega) hl1
          refine ⟨l', hl', ?_⟩
          rw [heq, hrep]
          rcases hcase with ⟨hrun, r, hr, hrr⟩ | ⟨hrun, hall⟩
          · exact Or.inl ⟨hrun, r, List.mem_cons_of_mem _ hr, hrr⟩
          · refine Or.inr ⟨hrun, ?_⟩
            intro r hr
            rcases List.mem_cons.mp hr with h | h
            · rw [h]; exact hnrej
            · exact hall r h
        obtain ⟨h1, h2, h3⟩ := hl
        rcases hflag with h | h | h
        · exact transfer { l with inputPath := strlcpy l.inputPath a PATH_MAX }
            ⟨strlcpy_mem_zero _ a _ hP, h2, h3⟩ (by simp [optionLoop, h, ha])
        · exact transfer { l with outputPath := strlcpy l.outputPath a PATH_MAX }
            ⟨h1, strlcpy_mem_zero _ a _ hP, h3⟩ (by simp [optionLoop, h, ha])
        · exact transfer { l with padPath := strlcpy l.padPath a PATH_MAX }
            ⟨h1, h2, strlcpy_mem_zero _ a _ hP⟩ (by simp [optionLoop, h, ha])

/-- More fuel than the size of the position does not change the replies. -/
theorem reports_stable (permute : Bool) :
    ∀ fuel g k, g.size < fuel → reports permute (fuel + k) g = reports permute fuel g := by
  intro fuel
  induction fuel with
  | zero => intro g k hg; omega
  | succ fuel ih =>
    intro g k hg
    have hk : fuel + 1 + k = (fuel + k) + 1 := by omega
    rw [hk]
    rcases getopt_cases permute g with ⟨hend, _⟩ | ⟨hsize, _⟩
    · simp [reports, hend]
    · simp only [reports]
      rw [ih _ k (by omega)]

theorem reports_good (permute : Bool) :
    ∀ fuel g, ∀ r ∈ reports permute fuel g, r.Good := by
  intro fuel
  induction fuel with
  | zero => intro g r hr; simp [reports] at hr
  | succ fuel ih =>
    intro g r hr
    rcases getopt_cases permute g with ⟨hend, _⟩ | ⟨_, hgood⟩
    · simp [reports, hend] at hr
    · simp only [reports] at hr
      split at hr
      · simp at hr
      · rcases List.mem_cons.mp hr with h | h
        · rw [h]; exact hgood
        · exact ih _ r h

theorem good_rejected_iff (r : Reply) (h : r.Good) :
    r.Rejected ↔ (r.opt ≠ 105 ∧ r.opt ≠ 111 ∧ r.opt ≠ 112) := by
  rcases h with ⟨h63, hrej⟩ | ⟨hflag, hnrej, _⟩
  · simp [h63, hrej]
  · constructor
    · intro hr; exact absurd hr hnrej
    · rintro ⟨h1, h2, h3⟩
      rcases hflag with h | h | h
      · exact absurd h h1
      · exact absurd h h2
      · exact absurd h h3

theorem getopt_no_options (permute : Bool) (rest : List (List Nat))
    (h : ∀ a ∈ rest, isNonOption a = true) :
    (getopt permute optstring ⟨rest, []⟩).opt = -1 := by
  cases permute with
  | true =>
    have hnil : rest.dropWhile isNonOption = [] := List.dropWhile_eq_nil_iff.mpr h
    simp [getopt, hnil]
  | false =>
    cases rest with
    | nil => simp [getopt]
    | cons a rest =>
      have ha := h a (by simp)
      simp only [getopt, Bool.false_eq_true, if_false]
      by_cases hdd : a = [45, 45]
      · simp [hdd]
      · simp only [hdd, if_false]
        split
        · simp [isNonOption] at ha
        · rfl

theorem size_initial_lt (argv : List (List Nat)) :
    (Getopt.mk (argv.drop 1) []).size < fuelFor argv := by
  cases argv with
  | nil => simp [Getopt.size, fuelFor]
  | cons a argv =>
    simp only [Getopt.size, fuelFor, List.drop_succ_cons, List.drop_zero, List.length_nil,
      List.map_cons, List.sum_cons]
    omega

theorem terminated_initial (PATH_MAX : Nat) (hP : 0 < PATH_MAX) :
    Locals.Terminated
      { inputPath := List.replicate PATH_MAX 0, outputPath := List.replicate PATH_MAX 0,
        padPath := List.replicate PATH_MAX 0 } := by
  have : 0 ∈ List.replicate PATH_MAX 0 := by
    simp [List.mem_replicate]; omega
  exact ⟨this, this, this⟩

theorem main_usage (PATH_MAX : Nat) (permute : Bool) (argv : List (List Nat)) (l' : Locals)
    (hrun : optionLoop PATH_MAX permute (fuelFor argv) ⟨argv.drop 1, []⟩
      { inputPath := List.replicate PATH_MAX 0, outputPath := List.replicate PATH_MAX 0,
        padPath := List.replicate PATH_MAX 0 } = .ok (.usage l')) :
    main PATH_MAX permute argv =
      .ok { status := EXIT_FAILURE, locals := l', stdout := [],
            stderr := lit "Usage: " ++ argv.headD [] ++
              lit " -i <input path> -o <output path> -p <pad output path>\n" } := by
  simp only [main, hrun]

theorem main_done (PATH_MAX : Nat) (permute : Bool) (argv : List (List Nat)) (l' : Locals)
    (hrun : optionLoop PATH_MAX permute (fuelFor argv) ⟨argv.drop 1, []⟩
      { inputPath := List.replicate PATH_MAX 0, outputPath := List.replicate PATH_MAX 0,
        padPath := List.replicate PATH_MAX 0 } = .ok (.done l'))
    (hl : l'.Terminated) :
    main PATH_MAX permute argv =
      .ok { status := EXIT_SUCCESS, locals := l',
            stdout := lit "inputPath " ++ cstr l'.inputPath ++ lit "\noutputPath " ++
              cstr l'.outputPath ++ lit "\npadPath " ++ cstr l'.padPath ++ lit "\n",
            stderr := [] } := by
  obtain ⟨h1, h2, h3⟩ := hl
  simp only [main, hrun, printS, h1, h2, h3, if_true, cstr]

/-- The run of `main` on any argument vector: it ends without fault, with
`EXIT_FAILURE` when one of the replies of `getopt` is a rejection and with
`EXIT_SUCCESS` when none is. -/
theorem main_exit (PATH_MAX : Nat) (permute : Bool) (argv : List (List Nat))
    (hP : 0 < PATH_MAX) :
    ∃ o, main PATH_MAX permute argv = .ok o ∧
      ((o.status = EXIT_FAILURE ∧
          ∃ r ∈ reports permute (fuelFor argv) ⟨argv.drop 1, []⟩, r.Rejected) ∨
       (o.status = EXIT_SUCCESS ∧
          ∀ r ∈ reports permute (fuelFor argv) ⟨argv.drop 1, []⟩, ¬ r.Rejected)) := by
  obtain ⟨l', hl', hcase⟩ := optionLoop_total PATH_MAX permute hP (fuelFor argv)
    ⟨argv.drop 1, []⟩ _ (size_initial_lt argv) (terminated_initial PATH_MAX hP)
  rcases hcase with ⟨hrun, hrej⟩ | ⟨hrun, hall⟩
  · exact ⟨_, main_usage PATH_MAX permute argv l' hrun, Or.inl ⟨rfl, hrej⟩⟩
  · exact ⟨_, main_done PATH_MAX permute argv l' hrun hl', Or.inr ⟨rfl, hall⟩⟩

/-! ## `splinch.c`: command lines made of `-i`, `-o`, `-p` options -/

/-- On an option of the command line `getopt` returns its flag and sets
`optarg` to its argument. -/
theorem getopt_option (permute : Bool) (o : Opt) (tail : List (List Nat)) (h : o.WellFormed) :
    getopt permute optstring ⟨o.render ++ tail, []⟩ =
      { opt := o.flag, optarg := some o.arg, diag := none, next := ⟨tail, []⟩ } := by
  obtain ⟨flag, arg, attached⟩ := o
  obtain ⟨hflag, _, hatt⟩ := h
  simp only at hflag hatt
  have hflag45 : flag ≠ 45 := by omega
  cases attached with
  | true =>
    have harg : arg ≠ [] := hatt rfl
    have hdd : (45 :: flag :: arg = [45, 45]) = False := by
      simp [harg]
    cases permute <;>
      simp [getopt, Opt.render, List.dropWhile, isNonOption, hdd, shortOption_optstring, hflag,
        harg]
  | false =>
    have hdd : ([45, flag] = [45, 45]) = False := by
      simp [hflag45]
    cases permute <;>
      simp [getopt, Opt.render, List.dropWhile, isNonOption, hdd, shortOption_optstring, hflag]

theorem optionLoop_options (PATH_MAX : Nat) (permute : Bool) :
    ∀ (os : List Opt) (l : Locals) (fuel : Nat), (∀ o ∈ os, o.WellFormed) → os.length < fuel →
      optionLoop PATH_MAX permute fuel ⟨(os.map Opt.render).flatten, []⟩ l =
        .ok (.done (os.foldl (applyOpt PATH_MAX) l)) := by
  intro os
  induction os with
  | nil =>
    intro l fuel _ hfuel
    cases fuel with
    | zero => simp at hfuel
    | succ fuel => cases permute <;> simp [optionLoop, getopt]
  | cons o os ih =>
    intro l fuel hos hfuel
    cases fuel with
    | zero => simp at hfuel
    | succ fuel =>
      have ho := hos o (by simp)
      have hstep := getopt_option permute o (os.map Opt.render).flatten ho
      have ih' := ih (applyOpt PATH_MAX l o) fuel (fun x hx => hos x (by simp [hx]))
        (by simpa using hfuel)
      simp only [List.map_cons, List.flatten_cons, List.foldl_cons]
      rcases ho.1 with h | h | h <;>
        simp [optionLoop, hstep, h, applyOpt] at ih' ⊢ <;> exact ih'

theorem length_le_fuelFor (prog : List Nat) (os : List Opt) :
    os.length < fuelFor (commandLine prog os) := by
  have h1 : ∀ l : List (List Nat), l.length ≤ (l.map (fun a => a.length + 1)).sum := by
    intro l
    induction l with
    | nil => simp
    | cons a l ih => simp only [List.length_cons, List.map_cons, List.sum_cons]; omega
  have h2 : ∀ os : List Opt, os.length ≤ (os.map Opt.render).flatten.length := by
    intro os
    induction os with
    | nil => simp
    | cons o os ih =>
      have : 1 ≤ o.render.length := by
        unfold Opt.render; split <;> simp
      simp only [List.length_cons, List.map_cons, List.flatten_cons, List.length_append]
      omega
  have := h1 (os.map Opt.render).flatten
  have := h2 os
  simp only [fuelFor, commandLine, List.map_cons, List.sum_cons]
  omega

theorem foldl_inputPath (PATH_MAX : Nat) (os : List Opt) (l : Locals) :
    (os.foldl (applyOpt PATH_MAX) l).inputPath =
      (os.filter (fun o => o.flag = 105)).foldl (fun b o => strlcpy b o.arg PATH_MAX)
        l.inputPath := by
  induction os generalizing l with
  | nil => rfl
  | cons o os ih =>
    rw [List.foldl_cons, ih]
    by_cases h : o.flag = 105
    · simp [List.filter, h, applyOpt]
    · have h' : (applyOpt PATH_MAX l o).inputPath = l.inputPath := by
        unfold applyOpt
        split_ifs <;> rfl
      simp [List.filter, h, h']

theorem foldl_outputPath (PATH_MAX : Nat) (os : List Opt) (l : Locals) :
    (os.foldl (applyOpt PATH_MAX) l).outputPath =
      (os.filter (fun o => o.flag = 111)).foldl (fun b o => strlcpy b o.arg PATH_MAX)
        l.outputPath := by
  induction os generalizing l with
  | nil => rfl
  | cons o os ih =>
    rw [List.foldl_cons, ih]
    by_cases h : o.flag = 111
    · simp [List.filter, h, applyOpt]
    · have h' : (applyOpt PATH_MAX l o).outputPath = l.outputPath := by
        unfold applyOpt
        split_ifs <;> rfl
      simp [List.filter, h, h']

theorem foldl_padPath (PATH_MAX : Nat) (os : List Opt) (l : Locals) :
    (os.foldl (applyOpt PATH_MAX) l).padPath =
      (os.filter (fun o => o.flag = 112)).foldl (fun b o => strlcpy b o.arg PATH_MAX)
        l.padPath := by
  induction os generalizing l with
  | nil => rfl
  | cons o os ih =>
    rw [List.foldl_cons, ih]
    by_cases h : o.flag = 112
    · simp [List.filter, h, applyOpt]
    · have h' : (applyOpt PATH_MAX l o).padPath = l.padPath := by
        unfold applyOpt
        split_ifs <;> rfl
      simp [List.filter, h, h']

/-- After a sequence of `strlcpy` into one buffer, the buffer holds the start
of the last string copied, keeps its size and its NUL. -/
theorem foldl_strlcpy (PATH_MAX : Nat) (hP : 0 < PATH_MAX) (xs : List Opt) (b0 : List Nat)
    (hxs : ∀ o ∈ xs, 0 ∉ o.arg) (hb0 : b0 = List.replicate PATH_MAX 0) :
    cstr (xs.foldl (fun b o => strlcpy b o.arg PATH_MAX) b0) =
        (match xs.getLast? with
          | some o => o.arg
          | none => []).take (PATH_MAX - 1) ∧
      (xs.foldl (fun b o => strlcpy b o.arg PATH_MAX) b0).length = PATH_MAX ∧
      0 ∈ xs.foldl (fun b o => strlcpy b o.arg PATH_MAX) b0 := by
  induction xs using List.reverseRecOn with
  | nil =>
    subst hb0
    refine ⟨?_, by simp, ?_⟩
    · cases PATH_MAX with
      | zero => omega
      | succ n => simp [cstr, List.replicate_succ]
    · simp [List.mem_replicate]; omega
  | append_singleton ys o ih =>
    obtain ⟨_, hlen, _⟩ := ih (fun x hx => hxs x (by simp [hx]))
    have ho : 0 ∉ o.arg := hxs o (by simp)
    have hlast : (ys ++ [o]).getLast? = some o := by simp
    simp only [List.foldl_append, List.foldl_cons, List.foldl_nil, hlast]
    exact ⟨cstr_strlcpy _ _ _ ho hP, strlcpy_length _ _ _ hlen, strlcpy_mem_zero _ _ _ hP⟩

/-- The run of `main` on a command line made of `-i`, `-o`, `-p` options. -/
theorem main_options (PATH_MAX : Nat) (permute : Bool) (prog : List Nat) (os : List Opt)
    (hP : 0 < PATH_MAX) (hos : ∀ x ∈ os, x.WellFormed) :
    ∃ out, main PATH_MAX permute (commandLine prog os) = .ok out ∧ out.status = 0 ∧
      out.locals = os.foldl (applyOpt PATH_MAX)
        { inputPath := List.replicate PATH_MAX 0, outputPath := List.replicate PATH_MAX 0,
          padPath := List.replicate PATH_MAX 0 } := by
  have hrun := optionLoop_options PATH_MAX permute os
    { inputPath := List.replicate PATH_MAX 0, outputPath := List.replicate PATH_MAX 0,
      padPath := List.replicate PATH_MAX 0 }
    (fuelFor (commandLine prog os)) hos (length_le_fuelFor prog os)
  have hterm : (os.foldl (applyOpt PATH_MAX)
      { inputPath := List.replicate PATH_MAX 0, outputPath := List.replicate PATH_MAX 0,
        padPath := List.replicate PATH_MAX 0 }).Terminated := by
    refine ⟨?_, ?_, ?_⟩
    · rw [foldl_inputPath]
      exact (foldl_strlcpy PATH_MAX hP _ _
        (fun x hx => (hos x (List.mem_of_mem_filter hx)).2.1) rfl).2.2
    · rw [foldl_outputPath]
      exact (foldl_strlcpy PATH_MAX hP _ _
        (fun x hx => (hos x (List.mem_of_mem_filter hx)).2.1) rfl).2.2
    · rw [foldl_padPath]
      exact (foldl_strlcpy PATH_MAX hP _ _
        (fun x hx => (hos x (List.mem_of_mem_filter hx)).2.1) rfl).2.2
  exact ⟨_, main_done PATH_MAX permute (commandLine prog os) _ hrun hterm, rfl, rfl⟩

/-! ## `splinch.c`: the specified properties -/

/-- C8 (exit status): on every argument vector `main` ends, with
`EXIT_FAILURE`, which is not zero, exactly when one of the replies of `getopt`
under `"i:o:p:"` reports an option other than `-i`, `-o`, `-p` or one of these
with its argument missing (the replies where `getopt` returns `?`), and with
status `0` otherwise: in particular when no argument is an option, and on every
command line made of `-i`, `-o`, `-p` options with arguments, whichever of the
three it leaves out. -/
theorem C8_exit_status (PATH_MAX : Nat) (permute : Bool) (argv : List (List Nat))
    (prog : List Nat) (os : List Opt) (hP : 0 < PATH_MAX) (hos : ∀ x ∈ os, x.WellFormed) :
    (∃ o, main PATH_MAX permute argv = .ok o ∧
      (o.status = EXIT_FAILURE ∨ o.status = 0) ∧
      (o.status = EXIT_FAILURE ↔
        ∃ r ∈ reports permute (fuelFor argv) ⟨argv.drop 1, []⟩, r.Rejected) ∧
      ((∀ a ∈ argv.drop 1, isNonOption a = true) → o.status = 0)) ∧
    EXIT_FAILURE ≠ 0 ∧
    (∀ r ∈ reports permute (fuelFor argv) ⟨argv.drop 1, []⟩,
      (r.Rejected ↔ r.opt = 63) ∧ (¬ r.Rejected ↔ (r.opt = 105 ∨ r.opt = 111 ∨ r.opt = 112))) ∧
    (∀ k, reports permute (fuelFor argv + k) ⟨argv.drop 1, []⟩ =
      reports permute (fuelFor argv) ⟨argv.drop 1, []⟩) ∧
    (∃ o, main PATH_MAX permute (commandLine prog os) = .ok o ∧ o.status = 0) := by
  refine ⟨?_, by decide, ?_, ?_, ?_⟩
  · obtain ⟨o, hrun, hcase⟩ := main_exit PATH_MAX permute argv hP
    have hne : EXIT_FAILURE ≠ EXIT_SUCCESS := by decide
    refine ⟨o, hrun, ?_, ?_, ?_⟩
    · rcases hcase with ⟨h, _⟩ | ⟨h, _⟩
      · exact Or.inl h
      · exact Or.inr h
    · rcases hcase with ⟨h, hrej⟩ | ⟨h, hall⟩
      · exact ⟨fun _ => hrej, fun _ => h⟩
      · constructor
        · intro hf
          rw [h] at hf
          exact absurd hf.symm hne
        · rintro ⟨r, hr, hrr⟩
          exact absurd hrr (hall r hr)
    · intro hnon
      rcases hcase with ⟨_, r, hr, _⟩ | ⟨h, _⟩
      · have hend := getopt_no_options permute (argv.drop 1) hnon
        unfold fuelFor at hr
        rw [reports] at hr
        simp only [hend, if_true] at hr
        exact absurd hr (List.not_mem_nil _)
      · exact h
  · intro r hr
    have hgood := reports_good permute _ _ r hr
    rcases hgood with ⟨h63, hrej⟩ | ⟨hflag, hnrej, _⟩
    · refine ⟨⟨fun _ => h63, fun _ => hrej⟩, ⟨fun h => absurd hrej h, ?_⟩⟩
      intro h
      rw [h63] at h
      rcases h with h | h | h <;> exact absurd h (by decide)
    · refine ⟨⟨fun h => absurd h hnrej, ?_⟩, ⟨fun _ => hflag, fun _ => hnrej⟩⟩
      intro h
      rw [h] at hflag
      rcases hflag with h | h | h <;> exact absurd h (by decide)
  · intro k
    exact reports_stable permute _ _ k (size_initial_lt argv)
  · obtain ⟨out, hrun, hst, _⟩ := main_options PATH_MAX permute prog os hP hos
    exact ⟨out, hrun, hst⟩

theorem take_of_short (l : List Nat) (n : Nat) (h : l.length < n) : l.take (n - 1) = l :=
  List.take_of_length_le (by omega)

theorem lastArg_absent (flag : Nat) (os : List Opt) (h : ∀ x ∈ os, x.flag ≠ flag) :
    lastArg flag os = [] := by
  have : os.filter (fun o => o.flag = flag) = [] := by
    rw [List.filter_eq_nil_iff]
    intro x hx
    simpa using h x hx
  simp [lastArg, this]

/-- C10 (path capture): on a command line made only of `-i`, `-o`, `-p`
options with arguments `main` ends with status `0` and each of `inputPath`,
`outputPath`, `padPath` is a `PATH_MAX`-byte buffer holding a NUL-terminated
string of at most `PATH_MAX - 1` bytes: the first `PATH_MAX - 1` bytes of the
argument of the last occurrence of its flag, which is the whole argument when
that is shorter than `PATH_MAX`, and the empty string when the flag does not
occur; and the loop run on one option from any buffers `l` changes no buffer
but the one of the option's flag. -/
theorem C10_path_capture (PATH_MAX : Nat) (permute : Bool) (prog : List Nat) (os : List Opt)
    (l : Locals) (o : Opt) (hP : 0 < PATH_MAX) (hos : ∀ x ∈ os, x.WellFormed)
    (ho : o.WellFormed) :
    (∃ out, main PATH_MAX permute (commandLine prog os) = .ok out ∧ out.status = 0 ∧
      (cstr out.locals.inputPath = (lastArg 105 os).take (PATH_MAX - 1) ∧
       cstr out.locals.outputPath = (lastArg 111 os).take (PATH_MAX - 1) ∧
       cstr out.locals.padPath = (lastArg 112 os).take (PATH_MAX - 1)) ∧
      (0 ∈ out.locals.inputPath ∧ 0 ∈ out.locals.outputPath ∧ 0 ∈ out.locals.padPath) ∧
      (out.locals.inputPath.length = PATH_MAX ∧ out.locals.outputPath.length = PATH_MAX ∧
       out.locals.padPath.length = PATH_MAX) ∧
      ((cstr out.locals.inputPath).length ≤ PATH_MAX - 1 ∧
       (cstr out.locals.outputPath).length ≤ PATH_MAX - 1 ∧
       (cstr out.locals.padPath).length ≤ PATH_MAX - 1) ∧
      (((lastArg 105 os).length < PATH_MAX → cstr out.locals.inputPath = lastArg 105 os) ∧
       ((lastArg 111 os).length < PATH_MAX → cstr out.locals.outputPath = lastArg 111 os) ∧
       ((lastArg 112 os).length < PATH_MAX → cstr out.locals.padPath = lastArg 112 os)) ∧
      (((∀ x ∈ os, x.flag ≠ 105) → cstr out.locals.inputPath = []) ∧
       ((∀ x ∈ os, x.flag ≠ 111) → cstr out.locals.outputPath = []) ∧
       ((∀ x ∈ os, x.flag ≠ 112) → cstr out.locals.padPath = []))) ∧
    (∃ l', optionLoop PATH_MAX permute 2 ⟨o.render, []⟩ l = .ok (.done l') ∧
      (o.flag ≠ 105 → l'.inputPath = l.inputPath) ∧
      (o.flag ≠ 111 → l'.outputPath = l.outputPath) ∧
      (o.flag ≠ 112 → l'.padPath = l.padPath)) := by
  constructor
  · obtain ⟨out, hrun, hst, hloc⟩ := main_options PATH_MAX permute prog os hP hos
    have hi := foldl_strlcpy PATH_MAX hP (os.filter (fun x => x.flag = 105))
      (List.replicate PATH_MAX 0) (fun x hx => (hos x (List.mem_of_mem_filter hx)).2.1) rfl
    have hout := foldl_strlcpy PATH_MAX hP (os.filter (fun x => x.flag = 111))
      (List.replicate PATH_MAX 0) (fun x hx => (hos x (List.mem_of_mem_filter hx)).2.1) rfl
    have hpad := foldl_strlcpy PATH_MAX hP (os.filter (fun x => x.flag = 112))
      (List.replicate PATH_MAX 0) (fun x hx => (hos x (List.mem_of_mem_filter hx)).2.1) rfl
    have e1 : out.locals.inputPath = (os.filter (fun x => x.flag = 105)).foldl
        (fun b o => strlcpy b o.arg PATH_MAX) (List.replicate PATH_MAX 0) := by
      rw [hloc]; exact foldl_inputPath PATH_MAX os _
    have e2 : out.locals.outputPath = (os.filter (fun x => x.flag = 111)).foldl
        (fun b o => strlcpy b o.arg PATH_MAX) (List.replicate PATH_MAX 0) := by
      rw [hloc]; exact foldl_outputPath PATH_MAX os _
    have e3 : out.locals.padPath = (os.filter (fun x => x.flag = 112)).foldl
        (fun b o => strlcpy b o.arg PATH_MAX) (List.replicate PATH_MAX 0) := by
      rw [hloc]; exact foldl_padPath PATH_MAX os _
    rw [← e1] at hi
    rw [← e2] at hout
    rw [← e3] at hpad
    have c1 : cstr out.locals.inputPath = (lastArg 105 os).take (PATH_MAX - 1) := hi.1
    have c2 : cstr out.locals.outputPath = (lastArg 111 os).take (PATH_MAX - 1) := hout.1
    have c3 : cstr out.locals.padPath = (lastArg 112 os).take (PATH_MAX - 1) := hpad.1
    refine ⟨out, hrun, hst, ⟨c1, c2, c3⟩, ⟨hi.2.2, hout.2.2, hpad.2.2⟩,
      ⟨hi.2.1, hout.2.1, hpad.2.1⟩, ⟨?_, ?_, ?_⟩, ⟨?_, ?_, ?_⟩, ⟨?_, ?_, ?_⟩⟩
    · rw [c1, List.length_take]; omega
    · rw [c2, List.length_take]; omega
    · rw [c3, List.length_take]; omega
    · intro h; rw [c1, take_of_short _ _ h]
    · intro h; rw [c2, take_of_short _ _ h]
    · intro h; rw [c3, take_of_short _ _ h]
    · intro h; rw [c1, lastArg_absent _ _ h, List.take_nil]
    · intro h; rw [c2, lastArg_absent _ _ h, List.take_nil]
    · intro h; rw [c3, lastArg_absent _ _ h, List.take_nil]
  · have hrun := optionLoop_options PATH_MAX permute [o] l 2
      (fun x hx => by rw [List.mem_singleton.mp hx]; exact ho) (by simp)
    simp only [List.map_cons, List.map_nil, List.flatten_cons, List.flatten_nil,
      List.append_nil, List.foldl_cons, List.foldl_nil] at hrun
    refine ⟨_, hrun, ?_, ?_, ?_⟩
    · intro h; unfold applyOpt; rw [if_neg h]; split_ifs <;> rfl
    · intro h; unfold applyOpt; split_ifs <;> rfl
    · intro h; unfold applyOpt; split_ifs <;> rfl

end Splinch

/-! ## Instances: `SplitDataXOR.c` on `"Hello World!"` -/

namespace SplitDataXOR

open CLib

/-- C1 on the program as written, with the key `sampleKey`: the extracted text
is `"Hello World!"` and its terminator. -/
theorem C1_round_trip_witness :
    (IsBytes helloWorld ∧ IsBytes sampleKey ∧ buflenOf helloWorld ≤ INT_MAX ∧
      sampleKey.length = buflenOf helloWorld) ∧
    (∃ o, main helloWorld (envWith sampleKey) = .ok o ∧
      o.state.extractedPlainText = helloWorld ++ [0]) ∧
    (∃ c, splitLoop [1, 2, 3] [4, 5, 6] 3 = .ok c ∧
      ∃ e, recombineLoop c.cypherText [4, 5, 6] 3 = .ok e ∧ e.extractedPlainText = [1, 2, 3]) := by
  refine ⟨by decide, ?_⟩
  obtain ⟨⟨o, hrun, _, _, _, _, hnul⟩, hloop⟩ :=
    C1_round_trip helloWorld sampleKey [1, 2, 3] [4, 5, 6] (envWith sampleKey)
      (by decide) (by decide) (by decide) (by decide) rfl rfl rfl rfl
      (by decide) (by decide) (by decide) (by decide)
  exact ⟨⟨o, hrun, hnul (by decide)⟩, hloop⟩

/-- C2 on the program as written: thirteen cipher bytes, and a sixteen-byte
cipher buffer keeps its byte at index 13. -/
theorem C2_cipher_definition_witness :
    (IsBytes helloWorld ∧ IsBytes sampleKey ∧ buflenOf helloWorld ≤ INT_MAX ∧
      sampleKey.length = buflenOf helloWorld ∧
      buflenOf helloWorld ≤ (List.replicate 16 9).length) ∧
    (∃ o, main helloWorld (envWith sampleKey) = .ok o ∧ o.state.cypherText.length = 13 ∧
      ∃ p k, (helloWorld ++ [0])[0]? = some p ∧ sampleKey[0]? = some k ∧
        o.state.cypherText[0]? = some (p ^^^ k)) ∧
    (∃ s, forLoop 13 (splitBody (helloWorld ++ [0])) 13 0
        (initState sampleKey (List.replicate 16 9) []) = .ok s ∧
      s.cypherText[13]? = some 9) := by
  refine ⟨by decide, ?_⟩
  obtain ⟨⟨o, hrun, hlen, hbyte⟩, ⟨s, hs, _, hrest, _, _⟩⟩ :=
    C2_cipher_definition helloWorld sampleKey (List.replicate 16 9) [] (envWith sampleKey)
      (by decide) (by decide) (by decide) (by decide) rfl rfl rfl rfl (by decide)
  exact ⟨⟨o, hrun, hlen, hbyte 0 (by decide)⟩, ⟨s, hs, hrest 13 (by decide)⟩⟩

/-- C3 for the secrets `48 65` and `01 02` and the cipher `49 67`. -/
theorem C3_share_reveals_nothing_witness :
    (IsBytes [0x48, 0x65] ∧ IsBytes [0x01, 0x02] ∧ IsBytes [0x49, 0x67]) ∧
    (∃! K, K.length = 2 ∧ IsBytes K ∧
      (splitLoop [0x48, 0x65] K 2).map State.cypherText = .ok [0x49, 0x67]) ∧
    (∃! K, K.length = 2 ∧ IsBytes K ∧
      (splitLoop [0x01, 0x02] K 2).map State.cypherText = .ok [0x49, 0x67]) := by
  refine ⟨by decide, ?_⟩
  have h := C3_share_reveals_nothing [0x48, 0x65] [0x01, 0x02] [0x49, 0x67]
    (by decide) (by decide) (by decide) (by decide) (by decide) (by decide)
  exact ⟨h.2.1, h.2.2.1⟩

/-- C4 on the program as written: a source that delivers three bytes, one that
delivers thirteen, and a failed allocation of `cypherText`. -/
theorem C4_entropy_failure_witness :
    (IsBytes helloWorld ∧ IsBytes sampleKey ∧ buflenOf helloWorld ≤ INT_MAX ∧
      buflenOf helloWorld ≤ sampleKey.length ∧ [1, 2, 3].length < buflenOf helloWorld) ∧
    (∃ o, main helloWorld (envWith [1, 2, 3]) = .ok o ∧ o.status = -2 ∧
      o.state.stdout = []) ∧
    (∃ o, main helloWorld (envWith sampleKey) = .ok o ∧ o.status = 0) ∧
    (∃ o, main helloWorld { envWith sampleKey with cypherTextAlloc := false } = .ok o ∧
      o.status = -1) := by
  refine ⟨by decide, ?_⟩
  obtain ⟨⟨o1, h1, hs1, _, _, _, _, _, hout, _⟩, ⟨o2, h2, hs2, _⟩, ⟨o3, h3, hs3⟩⟩ :=
    C4_entropy_failure helloWorld sampleKey (envWith [1, 2, 3]) (envWith sampleKey)
      { envWith sampleKey with cypherTextAlloc := false }
      rfl rfl rfl
      (by intro bs h; cases h; decide)
      rfl rfl rfl rfl (by decide) (by decide) (by decide) (by decide) (by decide)
  exact ⟨⟨o1, h1, hs1, hout⟩, ⟨o2, h2, hs2⟩, ⟨o3, h3, hs3⟩⟩

/-- C5 (amended) on the program as written: thirteen bytes are asked of the
random source and the cipher has thirteen bytes, for a literal of twelve. -/
theorem C5_length_preservation_witness :
    (IsBytes helloWorld ∧ IsBytes sampleKey ∧ buflenOf helloWorld ≤ INT_MAX ∧
      buflenOf helloWorld ≤ sampleKey.length ∧ helloWorld.length = 12) ∧
    (∃ o, main helloWorld (envWith sampleKey) = .ok o ∧ o.requested = 13 ∧
      o.state.xorKey.length = 13 ∧ o.state.cypherText.length = 13) := by
  refine ⟨by decide, ?_⟩
  obtain ⟨o, hrun, hreq, hkey, hcipher, _⟩ :=
    C5_length_preservation helloWorld sampleKey (envWith sampleKey)
      (by decide) (by decide) (by decide) (by decide) rfl rfl rfl rfl
  exact ⟨o, hrun, hreq, hkey, hcipher⟩

/-- C6 for a text of three bytes cut after the second. -/
theorem C6_streaming_equivalence_witness :
    ([1, 2].length = [3, 4].length ∧ [5].length = [6].length) ∧
    (∃ s s1 s2, splitLoop [1, 2, 5] [3, 4, 6] 3 = .ok s ∧
      splitLoop [1, 2] [3, 4] 2 = .ok s1 ∧ splitLoop [5] [6] 1 = .ok s2 ∧
      s.cypherText = s1.cypherText ++ s2.cypherText ∧ s.stdout = s1.stdout ++ s2.stdout) ∧
    (∃ s, splitLoop [1, 2, 5] [3, 4, 6] 3 = .ok s ∧
      splitChunks [([1, 2], [3, 4]), ([5], [6])] = .ok s.cypherText) := by
  refine ⟨by decide, ?_⟩
  exact C6_streaming_equivalence [1, 2] [3, 4] [5] [6] [([1, 2], [3, 4]), ([5], [6])]
    (by decide) (by decide) (by decide) (by decide) (by decide)

/-- C7 with the pad `01 02 03`. -/
theorem C7_concrete_scenario_witness :
    (IsBytes [0x03] ∧ [0x03] ≠ ([] : List Nat)) ∧
    (∃ o, main [0x48, 0x65] (envWith [0x01, 0x02, 0x03]) = .ok o ∧ o.status = 0 ∧
      o.state.cypherText.take 2 = [0x49, 0x67] ∧
      o.state.extractedPlainText = [0x48, 0x65, 0]) := by
  refine ⟨by decide, ?_⟩
  exact (C7_concrete_scenario [0x03] (by decide) (by decide)).1

/-- C9 on the program as written. -/
theorem C9_no_buffer_overrun_witness :
    (IsBytes helloWorld ∧ IsBytes sampleKey ∧ buflenOf helloWorld ≤ INT_MAX) ∧
    (∃ o, main helloWorld (envWith sampleKey) = .ok o ∧
      (o.status = -1 ∨
        (o.requested = 13 ∧ o.state.xorKey.length = 13 ∧ o.state.cypherText.length = 13 ∧
         o.state.extractedPlainText.length = 13))) := by
  refine ⟨by decide, ?_⟩
  exact (C9_no_buffer_overrun helloWorld (envWith sampleKey) (by decide)
    (by intro bs h; cases h; decide) (by decide)).1

end SplitDataXOR

/-! ## Instances: `splinch` command lines -/

namespace Splinch

open CLib

/-- C8 on `splinch -i in -x`, and on a command line without `-p`. -/
theorem C8_exit_status_witness :
    ((0 : Nat) < 8 ∧ ∀ x ∈ sampleOptions, x.WellFormed) ∧
    (∃ o, main 8 true [lit "splinch", lit "-i", lit "in", lit "-x"] = .ok o ∧
      (o.status = EXIT_FAILURE ↔
        ∃ r ∈ reports true (fuelFor [lit "splinch", lit "-i", lit "in", lit "-x"])
          ⟨[lit "-i", lit "in", lit "-x"], []⟩, r.Rejected)) ∧
    (∃ o, main 8 true (commandLine (lit "splinch") sampleOptions) = .ok o ∧ o.status = 0) := by
  refine ⟨by decide, ?_⟩
  obtain ⟨⟨o, hrun, _, hiff, _⟩, _, _, _, hopts⟩ :=
    C8_exit_status 8 true [lit "splinch", lit "-i", lit "in", lit "-x"] (lit "splinch")
      sampleOptions (by decide) (by decide)
  exact ⟨⟨o, hrun, hiff⟩, hopts⟩

/-- C10 with `PATH_MAX = 8`: the second `-i` wins and is cut to seven bytes,
`-o` is kept whole and the pad path is empty. -/
theorem C10_path_capture_witness :
    ((0 : Nat) < 8 ∧ (∀ x ∈ sampleOptions, x.WellFormed) ∧
      Opt.WellFormed ⟨112, lit "pad", false⟩) ∧
    (∃ out, main 8 false (commandLine (lit "splinch") sampleOptions) = .ok out ∧
      out.status = 0 ∧
      (cstr out.locals.inputPath = lit "averyve" ∧
       cstr out.locals.outputPath = lit "out" ∧
       cstr out.locals.padPath = [])) ∧
    (∃ l', optionLoop 8 false 2 ⟨[lit "-p", lit "pad"], []⟩ ⟨[1, 0], [2, 0], [3, 0]⟩ =
        .ok (.done l') ∧
      l'.inputPath = [1, 0] ∧ l'.outputPath = [2, 0]) := by
  refine ⟨by decide, ?_⟩
  obtain ⟨⟨out, hrun, hst, hpaths, _⟩, ⟨l', hl', hin, hout, _⟩⟩ :=
    C10_path_capture 8 false (lit "splinch") sampleOptions ⟨[1, 0], [2, 0], [3, 0]⟩
      ⟨112, lit "pad", false⟩ (by decide) (by decide) (by decide)
  exact ⟨⟨out, hrun, hst, hpaths⟩, ⟨l', hl', hin (by decide), hout (by decide)⟩⟩

end Splinch
